import Mathlib

/-!
# Verification of the goscope dependency-graph core

Shallow embedding of the graph container (`DependencyGraph` with
`AddVertex` / `AddEdge` / `OutDegree` / `InDegree`), the PageRank scorer
(`computePageRank`), the hotspot extractor (`GetTopHotspots`), and the
per-microservice declaration subgraph builder (`buildDeclGraph`).

Modelling conventions:
* Go maps are embedded as lists of their entries (`map[string]bool` as a
  duplicate-free `List String`, `map[string]map[string]bool` as the list of
  pairs it contains); map-iteration order is fixed to insertion order, one
  of the behaviours Go's unspecified iteration order allows.
* `float64` arithmetic is embedded as exact rational (`ℚ`) arithmetic.
* File contents read from disk are inputs of the embedding (the
  `contents` association list stands for the successfully-read entries of
  the `fileContents` map; a missing path reads as `""`, exactly as a Go
  map lookup miss does).
-/

/-- Embedding of `graph.DependencyGraph`.  `Vertices` lists the keys of the
`map[string]bool`; `adjacency` and `reverseAdj` list the `(outer key, inner
key)` pairs of the nested maps; `PageRankScores` lists the entries of the
score map. -/
structure DependencyGraph where
  Vertices : List String
  Edges : List (String × String)
  adjacency : List (String × String)
  reverseAdj : List (String × String)
  PageRankScores : List (String × ℚ)
deriving DecidableEq, Repr

namespace DependencyGraph

/-- Embedding of `graph.New`. -/
def New : DependencyGraph :=
  { Vertices := [], Edges := [], adjacency := [], reverseAdj := [],
    PageRankScores := [] }

/-- Embedding of `(*DependencyGraph).AddVertex`: setting `Vertices[v] = true`
adds the key if absent; the inner adjacency maps start empty, which the
pair-list representation leaves implicit. -/
def AddVertex (g : DependencyGraph) (v : String) : DependencyGraph :=
  if v ∈ g.Vertices then g else { g with Vertices := g.Vertices ++ [v] }

/-- Embedding of `(*DependencyGraph).AddEdge`. -/
def AddEdge (g : DependencyGraph) (source target : String) : DependencyGraph :=
  if source = target ∨ source ∉ g.Vertices ∨ target ∉ g.Vertices then g
  else if (source, target) ∈ g.adjacency then g
  else { g with Edges := g.Edges ++ [(source, target)],
                adjacency := g.adjacency ++ [(source, target)],
                reverseAdj := g.reverseAdj ++ [(target, source)] }

/-- Embedding of `(*DependencyGraph).OutDegree`: the size of the inner map
`adjacency[v]`, i.e. the number of adjacency pairs whose first component
is `v`. -/
def OutDegree (g : DependencyGraph) (v : String) : ℕ :=
  (g.adjacency.filter (fun p => p.1 == v)).length

/-- Embedding of `(*DependencyGraph).InDegree`. -/
def InDegree (g : DependencyGraph) (v : String) : ℕ :=
  (g.reverseAdj.filter (fun p => p.1 == v)).length

end DependencyGraph

/-- A single mutation of the graph container. -/
inductive GraphOp
  | addVertex (v : String)
  | addEdge (source target : String)
deriving DecidableEq, Repr

/-- Run one operation. -/
def applyOp (g : DependencyGraph) : GraphOp → DependencyGraph
  | .addVertex v => g.AddVertex v
  | .addEdge s t => g.AddEdge s t

/-- Run a sequence of operations starting from the empty graph. -/
def applyOps (ops : List GraphOp) : DependencyGraph :=
  ops.foldl applyOp DependencyGraph.New

/-- Well-formedness of the container state: duplicate-free vertex and edge
lists, adjacency indices in lockstep with the edge list, and every edge a
non-loop between registered vertices. -/
def GraphWF (g : DependencyGraph) : Prop :=
  g.Vertices.Nodup ∧ g.Edges.Nodup ∧ g.adjacency = g.Edges ∧
    g.reverseAdj = g.Edges.map (fun p => (p.2, p.1)) ∧
    ∀ e ∈ g.Edges, e.1 ≠ e.2 ∧ e.1 ∈ g.Vertices ∧ e.2 ∈ g.Vertices

instance (g : DependencyGraph) : Decidable (GraphWF g) := by
  unfold GraphWF; exact inferInstance

theorem graphWF_new : GraphWF DependencyGraph.New := by
  refine ⟨List.nodup_nil, List.nodup_nil, rfl, rfl, ?_⟩
  intro e he; simp [DependencyGraph.New] at he

theorem graphWF_addVertex {g : DependencyGraph} (h : GraphWF g) (v : String) :
    GraphWF (g.AddVertex v) := by
  obtain ⟨h1, h2, h3, h4, h5⟩ := h
  unfold DependencyGraph.AddVertex
  split
  · exact ⟨h1, h2, h3, h4, h5⟩
  · refine ⟨?_, h2, h3, h4, ?_⟩
    · simpa [List.nodup_append] using ⟨h1, by assumption⟩
    · intro e he
      obtain ⟨he1, he2, he3⟩ := h5 e he
      exact ⟨he1, by simp [he2], by simp [he3]⟩

theorem graphWF_addEdge {g : DependencyGraph} (h : GraphWF g) (s t : String) :
    GraphWF (g.AddEdge s t) := by
  obtain ⟨h1, h2, h3, h4, h5⟩ := h
  unfold DependencyGraph.AddEdge
  split
  · exact ⟨h1, h2, h3, h4, h5⟩
  · split
    · exact ⟨h1, h2, h3, h4, h5⟩
    · rename_i hcond hmem
      push_neg at hcond
      obtain ⟨hst, hs, ht⟩ := hcond
      refine ⟨h1, ?_, by simp [h3], by simp [h4], ?_⟩
      · rw [h3] at hmem
        simpa [List.nodup_append] using ⟨h2, hmem⟩
      · intro e he
        rcases List.mem_append.mp he with he' | he'
        · exact h5 e he'
        · simp at he'
          subst he'
          exact ⟨hst, hs, ht⟩

theorem graphWF_applyOps (ops : List GraphOp) : GraphWF (applyOps ops) := by
  suffices h : ∀ g, GraphWF g → GraphWF (ops.foldl applyOp g) from
    h _ graphWF_new
  induction ops with
  | nil => intro g hg; exact hg
  | cons op rest ih =>
      intro g hg
      cases op with
      | addVertex v => exact ih _ (graphWF_addVertex hg v)
      | addEdge s t => exact ih _ (graphWF_addEdge hg s t)

theorem addEdge_rejected {g : DependencyGraph} {s t : String}
    (h : s = t ∨ s ∉ g.Vertices ∨ t ∉ g.Vertices) : g.AddEdge s t = g := by
  unfold DependencyGraph.AddEdge
  rw [if_pos h]

/-- Claim C3: starting from the empty graph, after any sequence of
`AddVertex`/`AddEdge` operations every recorded edge has distinct
endpoints, both of which are registered vertices; moreover an `AddEdge`
call with `source = target` or with an unregistered endpoint leaves the
graph (any graph) completely unchanged. -/
theorem edges_wellformed (ops : List GraphOp) :
    (∀ e ∈ (applyOps ops).Edges,
        e.1 ≠ e.2 ∧ e.1 ∈ (applyOps ops).Vertices ∧
          e.2 ∈ (applyOps ops).Vertices) ∧
    (∀ (g : DependencyGraph) (s t : String),
        (s = t ∨ s ∉ g.Vertices ∨ t ∉ g.Vertices) → g.AddEdge s t = g) := by
  refine ⟨(graphWF_applyOps ops).2.2.2.2, fun g s t h => addEdge_rejected h⟩

theorem edges_wellformed_witness :
    (("a", "b") ∈
        (applyOps [.addVertex "a", .addVertex "b",
          .addEdge "a" "b"]).Edges) ∧
    (("a", "b").1 ≠ ("a", "b").2 ∧
      ("a", "b").1 ∈ (applyOps [.addVertex "a", .addVertex "b",
          .addEdge "a" "b"]).Vertices ∧
      ("a", "b").2 ∈ (applyOps [.addVertex "a", .addVertex "b",
          .addEdge "a" "b"]).Vertices) ∧
    (applyOps [.addVertex "a"]).AddEdge "c" "c" = applyOps [.addVertex "a"] :=
  ⟨by decide,
   (edges_wellformed [.addVertex "a", .addVertex "b",
      .addEdge "a" "b"]).1 ("a", "b") (by decide),
   (edges_wellformed []).2 (applyOps [.addVertex "a"]) "c" "c"
     (Or.inl rfl)⟩

/-- Claim C10: after any operation sequence the adjacency indices agree
with the edge list: `OutDegree v` counts the edges with source `v`, and
`InDegree v` counts the edges with target `v`. -/
theorem degrees_match_edge_list (ops : List GraphOp) (v : String) :
    DependencyGraph.OutDegree (applyOps ops) v =
      ((applyOps ops).Edges.filter (fun e => e.1 == v)).length ∧
    DependencyGraph.InDegree (applyOps ops) v =
      ((applyOps ops).Edges.filter (fun e => e.2 == v)).length := by
  obtain ⟨-, -, hadj, hrev, -⟩ := graphWF_applyOps ops
  constructor
  · rw [DependencyGraph.OutDegree, hadj]
  · rw [DependencyGraph.InDegree, hrev, List.filter_map]
    simp [Function.comp_def]

theorem addEdge_of_mem_adj {g : DependencyGraph} {s t : String}
    (h : (s, t) ∈ g.adjacency) : g.AddEdge s t = g := by
  simp only [DependencyGraph.AddEdge, if_pos h, ite_self]

theorem addEdge_insert {g : DependencyGraph} {s t : String}
    (hrej : ¬(s = t ∨ s ∉ g.Vertices ∨ t ∉ g.Vertices))
    (hmem : (s, t) ∉ g.adjacency) :
    g.AddEdge s t =
      { g with Edges := g.Edges ++ [(s, t)],
               adjacency := g.adjacency ++ [(s, t)],
               reverseAdj := g.reverseAdj ++ [(t, s)] } := by
  unfold DependencyGraph.AddEdge
  rw [if_neg hrej, if_neg hmem]

theorem filter_beq_length_eq_one {α : Type} [BEq α] [LawfulBEq α]
    {l : List α} (hd : l.Nodup) {x : α} (hx : x ∈ l) :
    (l.filter (fun e => e == x)).length = 1 := by
  induction l with
  | nil => simp at hx
  | cons a rest ih =>
      rcases List.mem_cons.mp hx with h | h
      · subst h
        have hxr : x ∉ rest := (List.nodup_cons.mp hd).1
        have hnot : rest.filter (fun e => e == x) = [] := by
          rw [List.filter_eq_nil_iff]
          intro b hb
          simp only [beq_iff_eq]
          exact fun hbx => hxr (hbx ▸ hb)
        simp [hnot]
      · have hne : ¬(a == x) = true := by
          simp only [beq_iff_eq]
          exact fun hax => (List.nodup_cons.mp hd).1 (hax ▸ h)
        simp only [List.filter_cons, if_neg hne]
        exact ih (List.nodup_cons.mp hd).2 h

theorem occurrences_addEdge {g : DependencyGraph} {s t : String}
    (hwf : GraphWF g) (hne : s ≠ t) (hs : s ∈ g.Vertices)
    (ht : t ∈ g.Vertices) :
    ((g.AddEdge s t).Edges.filter (fun e => e == (s, t))).length = 1 := by
  obtain ⟨-, h2, h3, -, -⟩ := hwf
  by_cases hmem : (s, t) ∈ g.adjacency
  · rw [addEdge_of_mem_adj hmem]
    exact filter_beq_length_eq_one h2 (h3 ▸ hmem)
  · rw [addEdge_insert (by simp [hne, hs, ht]) hmem]
    have hnot : g.Edges.filter (fun e => e == (s, t)) = [] := by
      rw [List.filter_eq_nil_iff]
      intro b hb
      simp only [beq_iff_eq]
      exact fun hbe => hmem (h3 ▸ (hbe ▸ hb))
    simp [List.filter_append, hnot]

/-- Claim C4: `AddEdge` is idempotent: a second call with the same pair is
a no-op on the entire graph state, and (for a well-formed graph, with the
pair's endpoints registered and distinct) the pair occurs exactly once in
the edge list after the two calls. -/
theorem addEdge_idempotent (g : DependencyGraph) (s t : String) :
    (g.AddEdge s t).AddEdge s t = g.AddEdge s t ∧
    (GraphWF g → s ≠ t → s ∈ g.Vertices → t ∈ g.Vertices →
      (((g.AddEdge s t).AddEdge s t).Edges.filter
          (fun e => e == (s, t))).length = 1) := by
  have hidem : (g.AddEdge s t).AddEdge s t = g.AddEdge s t := by
    by_cases hrej : s = t ∨ s ∉ g.Vertices ∨ t ∉ g.Vertices
    · rw [addEdge_rejected hrej, addEdge_rejected hrej]
    · by_cases hmem : (s, t) ∈ g.adjacency
      · rw [addEdge_of_mem_adj hmem, addEdge_of_mem_adj hmem]
      · rw [addEdge_insert hrej hmem]
        exact addEdge_of_mem_adj (by simp)
  refine ⟨hidem, fun hwf hne hs ht => ?_⟩
  rw [hidem]
  exact occurrences_addEdge hwf hne hs ht

theorem addEdge_idempotent_witness :
    GraphWF (applyOps [.addVertex "a", .addVertex "b"]) ∧
    ("a" : String) ≠ "b" ∧
    "a" ∈ (applyOps [.addVertex "a", .addVertex "b"]).Vertices ∧
    "b" ∈ (applyOps [.addVertex "a", .addVertex "b"]).Vertices ∧
    ((((applyOps [.addVertex "a", .addVertex "b"]).AddEdge "a" "b").AddEdge
        "a" "b").Edges.filter (fun e => e == ("a", "b"))).length = 1 :=
  ⟨by decide, by decide, by decide, by decide,
   (addEdge_idempotent (applyOps [.addVertex "a", .addVertex "b"]) "a" "b").2
     (by decide) (by decide) (by decide) (by decide)⟩

namespace DependencyGraph

/-- The out-neighbour list of `v`: the keys of the inner map `adjacency[v]`. -/
def outNeighbors (g : DependencyGraph) (v : String) : List String :=
  (g.adjacency.filter (fun p => p.1 == v)).map (fun p => p.2)

end DependencyGraph

/-- Pointwise update of a score map (a Go map write `m[k] = x`). -/
def updFn (f : String → ℚ) (k : String) (x : ℚ) : String → ℚ :=
  fun y => if y = k then x else f y

/-- The initial score map of `computePageRank`: every vertex starts at
`1/n`; a missing key reads as `0`, as a Go map lookup miss does. -/
def prInit (g : DependencyGraph) : String → ℚ :=
  fun v => if v ∈ g.Vertices then 1 / (g.Vertices.length : ℚ) else 0

/-- The fresh `newScores` map at the start of an iteration: every vertex
receives the base mass `(1-damping)/n`. -/
def prBase (g : DependencyGraph) (damping : ℚ) : String → ℚ :=
  fun v => if v ∈ g.Vertices then (1 - damping) / (g.Vertices.length : ℚ) else 0

/-- The inner loop `for neighbor := range neighbors { newScores[neighbor] +=
damping * share }`. -/
def addShares (damping share : ℚ) (nbrs : List String) (ns : String → ℚ) :
    String → ℚ :=
  nbrs.foldl (fun acc nb => updFn acc nb (acc nb + damping * share)) ns

/-- One iteration of the loop body of `computePageRank`: build `newScores`
from the base mass, then redistribute each vertex's current score over its
out-neighbours, scaled by the damping factor. -/
def prIterate (g : DependencyGraph) (damping : ℚ) (scores : String → ℚ) :
    String → ℚ :=
  g.Vertices.foldl
    (fun ns v =>
      let nbrs := g.outNeighbors v
      if nbrs.length = 0 then ns
      else addShares damping (scores v / (nbrs.length : ℚ)) nbrs ns)
    (prBase g damping)

/-- The score map after `k` iterations of `computePageRank`. -/
def prScores (g : DependencyGraph) (damping : ℚ) : ℕ → (String → ℚ)
  | 0 => prInit g
  | k + 1 => prIterate g damping (prScores g damping k)

namespace DependencyGraph

/-- Embedding of `(*DependencyGraph).computePageRank`: if the vertex set is
empty, return at once (the score map keeps its previous value); otherwise
run the fixed number of iterations and store the final map, whose keys are
exactly the vertices. -/
def computePageRank (g : DependencyGraph) (damping : ℚ) (iterations : ℕ) :
    DependencyGraph :=
  if g.Vertices.length = 0 then g
  else { g with PageRankScores :=
    g.Vertices.map (fun v => (v, prScores g damping iterations v)) }

/-- Embedding of `(*DependencyGraph).Analyze`: `computePageRank(0.85, 100)`. -/
def Analyze (g : DependencyGraph) : DependencyGraph :=
  g.computePageRank (85 / 100) 100

end DependencyGraph

/-- Reading `g.PageRankScores[v]` from the entry list of the score map
(`0` on a missing key, as in Go). -/
def lookupScore (l : List (String × ℚ)) (v : String) : ℚ :=
  ((l.find? (fun p => p.1 == v)).map Prod.snd).getD 0

/-- Restated from the spec's words, for the refinement claim C1: the new
score of `v` is the base mass `(1-damping)/N` plus `damping` times the sum,
over the vertices `u` of positive out-degree that have `v` among their
out-neighbours, of `u`'s current score divided by its out-degree. -/
def prSpecStep (g : DependencyGraph) (damping : ℚ) (scores : String → ℚ) :
    String → ℚ :=
  fun v =>
    (1 - damping) / (g.Vertices.length : ℚ) +
      damping *
        ((g.Vertices.filter
            (fun u => decide (0 < (g.outNeighbors u).length ∧
              v ∈ g.outNeighbors u))).map
          (fun u => scores u / ((g.outNeighbors u).length : ℚ))).sum

/-- Restated from the spec's words: every score starts at `1/N`, and each
of the `k` iterations replaces the whole map by the `prSpecStep` image. -/
def prSpecScores (g : DependencyGraph) (damping : ℚ) : ℕ → (String → ℚ)
  | 0 => fun _ => 1 / (g.Vertices.length : ℚ)
  | k + 1 => prSpecStep g damping (prSpecScores g damping k)

theorem addShares_apply {nbrs : List String} (hnd : nbrs.Nodup)
    (damping share : ℚ) (ns : String → ℚ) (x : String) :
    addShares damping share nbrs ns x =
      ns x + (if x ∈ nbrs then damping * share else 0) := by
  induction nbrs generalizing ns with
  | nil => simp [addShares]
  | cons nb rest ih =>
      have hstep : addShares damping share (nb :: rest) ns =
          addShares damping share rest (updFn ns nb (ns nb + damping * share)) := rfl
      rw [hstep, ih (List.nodup_cons.mp hnd).2]
      by_cases hx : x = nb
      · subst hx
        have hnr : x ∉ rest := (List.nodup_cons.mp hnd).1
        simp [updFn, hnr]
      · simp [updFn, hx, List.mem_cons]

theorem addShares_apply_not_mem {nbrs : List String} {x : String}
    (hx : x ∉ nbrs) (damping share : ℚ) (ns : String → ℚ) :
    addShares damping share nbrs ns x = ns x := by
  induction nbrs generalizing ns with
  | nil => rfl
  | cons nb rest ih =>
      have hstep : addShares damping share (nb :: rest) ns =
          addShares damping share rest (updFn ns nb (ns nb + damping * share)) := rfl
      rw [hstep, ih (fun h => hx (List.mem_cons_of_mem _ h))]
      have : x ≠ nb := fun h => hx (h ▸ List.mem_cons_self _ _)
      simp [updFn, this]

theorem foldl_shares_apply (g : DependencyGraph) (damping : ℚ)
    (scores : String → ℚ) (x : String)
    (hnb : ∀ u, (g.outNeighbors u).Nodup) :
    ∀ (l : List String) (b : String → ℚ),
      (l.foldl
        (fun ns v =>
          let nbrs := g.outNeighbors v
          if nbrs.length = 0 then ns
          else addShares damping (scores v / (nbrs.length : ℚ)) nbrs ns) b) x =
      b x +
        ((l.filter (fun u => decide (x ∈ g.outNeighbors u))).map
          (fun u => damping * (scores u / ((g.outNeighbors u).length : ℚ)))).sum := by
  intro l
  induction l with
  | nil => intro b; simp
  | cons u rest ih =>
      intro b
      rw [List.foldl_cons, ih]
      by_cases hx : x ∈ g.outNeighbors u
      · have hlen : ¬((g.outNeighbors u).length = 0) := by
          intro h
          rw [List.length_eq_zero] at h
          rw [h] at hx
          exact (List.not_mem_nil x) hx
        simp only [if_neg hlen]
        rw [addShares_apply (hnb u) damping _ b x, if_pos hx]
        have hfil : (u :: rest).filter
            (fun u => decide (x ∈ g.outNeighbors u)) =
            u :: rest.filter (fun u => decide (x ∈ g.outNeighbors u)) := by
          rw [List.filter_cons, if_pos (by simpa using hx)]
        rw [hfil, List.map_cons, List.sum_cons, add_assoc]
      · have hfil : (u :: rest).filter
            (fun u => decide (x ∈ g.outNeighbors u)) =
            rest.filter (fun u => decide (x ∈ g.outNeighbors u)) := by
          rw [List.filter_cons, if_neg (by simpa using hx)]
        rw [hfil]
        by_cases hlen : (g.outNeighbors u).length = 0
        · simp only [if_pos hlen]
        · simp only [if_neg hlen]
          rw [addShares_apply (hnb u) damping _ b x, if_neg hx, add_zero]

theorem outNeighbors_nodup {g : DependencyGraph} (hwf : GraphWF g)
    (u : String) : (g.outNeighbors u).Nodup := by
  obtain ⟨-, h2, h3, -, -⟩ := hwf
  unfold DependencyGraph.outNeighbors
  refine List.Nodup.map_on ?_ (List.Nodup.filter _ (h3 ▸ h2))
  intro p hp q hq hpq
  have hp1 : p.1 = u := by simpa using (List.mem_filter.mp hp).2
  have hq1 : q.1 = u := by simpa using (List.mem_filter.mp hq).2
  exact Prod.ext (hp1.trans hq1.symm) hpq

theorem prIterate_eq_spec {g : DependencyGraph} (hwf : GraphWF g)
    (damping : ℚ) (scores : String → ℚ) {x : String}
    (hx : x ∈ g.Vertices) :
    prIterate g damping scores x = prSpecStep g damping scores x := by
  rw [prIterate, foldl_shares_apply g damping scores x
    (outNeighbors_nodup hwf), prSpecStep]
  have hbase : prBase g damping x = (1 - damping) / (g.Vertices.length : ℚ) := by
    rw [prBase, if_pos hx]
  rw [hbase]
  congr 1
  have hfil : g.Vertices.filter
      (fun u => decide (0 < (g.outNeighbors u).length ∧
        x ∈ g.outNeighbors u)) =
      g.Vertices.filter (fun u => decide (x ∈ g.outNeighbors u)) := by
    refine List.filter_congr ?_
    intro u _
    by_cases hm : x ∈ g.outNeighbors u
    · have hpos : 0 < (g.outNeighbors u).length :=
        List.length_pos.mpr (List.ne_nil_of_mem hm)
      simp [hm, hpos]
    · simp [hm]
  rw [hfil, ← List.sum_map_mul_left]

theorem prScores_eq_spec {g : DependencyGraph} (hwf : GraphWF g)
    (damping : ℚ) :
    ∀ (k : ℕ), ∀ x ∈ g.Vertices,
      prScores g damping k x = prSpecScores g damping k x := by
  intro k
  induction k with
  | zero =>
      intro x hx
      rw [prScores, prSpecScores, prInit, if_pos hx]
  | succ k ih =>
      intro x hx
      rw [prScores, prSpecScores,
        prIterate_eq_spec hwf damping (prScores g damping k) hx]
      unfold prSpecStep
      congr 1
      congr 1
      congr 1
      refine List.map_congr_left ?_
      intro u hu
      rw [ih u (List.mem_filter.mp hu).1]

/-- Claim C1: the relevance scorer computes PageRank exactly as the spec
describes it: scores start at `1/N`, 100 iterations with damping `0.85`
each replace the whole map by the spec's update (base mass `(1-0.85)/N`
plus, from every vertex of positive out-degree, its current score divided
by its out-degree and scaled by `0.85`, added to each out-neighbour), and
the final map after the 100 iterations is stored unrenormalised. -/
theorem analyze_meets_spec (g : DependencyGraph) (hwf : GraphWF g)
    (hne : g.Vertices ≠ []) :
    g.Analyze.PageRankScores =
      g.Vertices.map (fun v => (v, prSpecScores g (85 / 100) 100 v)) ∧
    ∀ (k : ℕ), ∀ v ∈ g.Vertices,
      prScores g (85 / 100) k v = prSpecScores g (85 / 100) k v := by
  constructor
  · rw [DependencyGraph.Analyze, DependencyGraph.computePageRank,
      if_neg (by simpa using hne)]
    refine List.map_congr_left ?_
    intro v hv
    rw [prScores_eq_spec hwf (85 / 100) 100 v hv]
  · exact prScores_eq_spec hwf (85 / 100)

theorem analyze_meets_spec_witness :
    GraphWF (applyOps [.addVertex "x", .addVertex "y", .addEdge "x" "y"]) ∧
    (applyOps [.addVertex "x", .addVertex "y",
      .addEdge "x" "y"]).Vertices ≠ [] ∧
    (applyOps [.addVertex "x", .addVertex "y",
        .addEdge "x" "y"]).Analyze.PageRankScores =
      (applyOps [.addVertex "x", .addVertex "y",
        .addEdge "x" "y"]).Vertices.map
        (fun v => (v, prSpecScores (applyOps [.addVertex "x", .addVertex "y",
          .addEdge "x" "y"]) (85 / 100) 100 v)) :=
  ⟨by decide, by decide,
   (analyze_meets_spec _ (by decide) (by decide)).1⟩

theorem prIterate_no_incoming {g : DependencyGraph} {v : String}
    (hno : ∀ p ∈ g.adjacency, p.2 ≠ v) (damping : ℚ) (scores : String → ℚ) :
    prIterate g damping scores v = prBase g damping v := by
  have hnot : ∀ u, v ∉ g.outNeighbors u := by
    intro u hv
    obtain ⟨p, hp, hp2⟩ := List.mem_map.mp hv
    exact hno p (List.mem_filter.mp hp).1 hp2
  rw [prIterate]
  generalize prBase g damping = b
  induction g.Vertices generalizing b with
  | nil => rfl
  | cons u rest ih =>
      rw [List.foldl_cons]
      by_cases hlen : (g.outNeighbors u).length = 0
      · simpa only [if_pos hlen] using ih b
      · simp only [if_neg hlen]
        rw [ih, addShares_apply_not_mem (hnot u)]

/-- Claim C8: in a graph of exactly 4 vertices where `v` is isolated (it
appears in no adjacency pair, neither as source nor as target), with
damping `0.85`, `v`'s score after any positive number of iterations is
exactly `(1-0.85)/4 = 0.0375 = 3/80`. -/
theorem isolated_vertex_score (g : DependencyGraph) (v : String) (k : ℕ)
    (hv : v ∈ g.Vertices) (hn : g.Vertices.length = 4)
    (hiso : ∀ p ∈ g.adjacency, p.1 ≠ v ∧ p.2 ≠ v) (hk : 1 ≤ k) :
    prScores g (85 / 100) k v = 3 / 80 := by
  obtain ⟨j, rfl⟩ : ∃ j, k = j + 1 := ⟨k - 1, by omega⟩
  rw [prScores,
    prIterate_no_incoming (fun p hp => (hiso p hp).2) (85 / 100)
      (prScores g (85 / 100) j),
    prBase, if_pos hv, hn]
  norm_num

theorem isolated_vertex_score_witness :
    "D" ∈ (applyOps [.addVertex "A", .addVertex "B", .addVertex "C",
      .addVertex "D", .addEdge "A" "B"]).Vertices ∧
    (applyOps [.addVertex "A", .addVertex "B", .addVertex "C",
      .addVertex "D", .addEdge "A" "B"]).Vertices.length = 4 ∧
    (∀ p ∈ (applyOps [.addVertex "A", .addVertex "B", .addVertex "C",
      .addVertex "D", .addEdge "A" "B"]).adjacency,
        p.1 ≠ "D" ∧ p.2 ≠ "D") ∧
    prScores (applyOps [.addVertex "A", .addVertex "B", .addVertex "C",
      .addVertex "D", .addEdge "A" "B"]) (85 / 100) 1 "D" = 3 / 80 :=
  ⟨by decide, by decide, by decide,
   isolated_vertex_score _ "D" 1 (by decide) (by decide) (by decide)
     (le_refl 1)⟩

/-- The 3-cycle graph of claim C9: vertices `A`, `B`, `C` and edges
`A→B`, `B→C`, `C→A`. -/
def g3 : DependencyGraph :=
  applyOps [.addVertex "A", .addVertex "B", .addVertex "C",
    .addEdge "A" "B", .addEdge "B" "C", .addEdge "C" "A"]

theorem g3_scores_equal_aux (k : ℕ) :
    prScores g3 (85 / 100) k "A" = prScores g3 (85 / 100) k "B" ∧
    prScores g3 (85 / 100) k "B" = prScores g3 (85 / 100) k "C" := by
  induction k with
  | zero =>
      constructor
      · show prInit g3 "A" = prInit g3 "B"
        simp only [prInit]
        rw [if_pos (show "A" ∈ g3.Vertices by decide),
          if_pos (show "B" ∈ g3.Vertices by decide)]
      · show prInit g3 "B" = prInit g3 "C"
        simp only [prInit]
        rw [if_pos (show "B" ∈ g3.Vertices by decide),
          if_pos (show "C" ∈ g3.Vertices by decide)]
  | succ k ih =>
      have hwf : GraphWF g3 := by decide
      obtain ⟨ih1, ih2⟩ := ih
      have hA : prScores g3 (85 / 100) (k + 1) "A" =
          prSpecStep g3 (85 / 100) (prScores g3 (85 / 100) k) "A" := by
        rw [prScores]; exact prIterate_eq_spec hwf _ _ (by decide)
      have hB : prScores g3 (85 / 100) (k + 1) "B" =
          prSpecStep g3 (85 / 100) (prScores g3 (85 / 100) k) "B" := by
        rw [prScores]; exact prIterate_eq_spec hwf _ _ (by decide)
      have hC : prScores g3 (85 / 100) (k + 1) "C" =
          prSpecStep g3 (85 / 100) (prScores g3 (85 / 100) k) "C" := by
        rw [prScores]; exact prIterate_eq_spec hwf _ _ (by decide)
      have hfA : g3.Vertices.filter
          (fun u => decide (0 < (g3.outNeighbors u).length ∧
            "A" ∈ g3.outNeighbors u)) = ["C"] := by decide
      have hfB : g3.Vertices.filter
          (fun u => decide (0 < (g3.outNeighbors u).length ∧
            "B" ∈ g3.outNeighbors u)) = ["A"] := by decide
      have hfC : g3.Vertices.filter
          (fun u => decide (0 < (g3.outNeighbors u).length ∧
            "C" ∈ g3.outNeighbors u)) = ["B"] := by decide
      have hlA : ((g3.outNeighbors "A").length : ℚ) = 1 := by
        rw [show (g3.outNeighbors "A").length = 1 from by decide]; norm_num
      have hlB : ((g3.outNeighbors "B").length : ℚ) = 1 := by
        rw [show (g3.outNeighbors "B").length = 1 from by decide]; norm_num
      have hlC : ((g3.outNeighbors "C").length : ℚ) = 1 := by
        rw [show (g3.outNeighbors "C").length = 1 from by decide]; norm_num
      rw [hA, hB, hC]
      unfold prSpecStep
      rw [hfA, hfB, hfC]
      simp only [List.map_cons, List.map_nil, List.sum_cons, List.sum_nil]
      rw [hlA, hlB, hlC, ih1, ih2]
      exact ⟨rfl, rfl⟩

theorem lookupScore_map_self (f : String → ℚ) (vs : List String)
    (x : String) (hx : x ∈ vs) :
    lookupScore (vs.map (fun v => (v, f v))) x = f x := by
  induction vs with
  | nil => simp at hx
  | cons a rest ih =>
      by_cases hax : a = x
      · subst hax
        rw [List.map_cons, lookupScore,
          List.find?_cons_of_pos _ (by simp)]
        rfl
      · rw [List.map_cons, lookupScore,
          List.find?_cons_of_neg _ (by simp [hax])]
        show lookupScore (rest.map (fun v => (v, f v))) x = f x
        exact ih (by
          rcases List.mem_cons.mp hx with h | h
          · exact absurd h.symm hax
          · exact h)

/-- Claim C9: on the 3-cycle graph (`A→B`, `B→C`, `C→A`) the three
PageRank scores stored after the scorer's 100 iterations are all equal. -/
theorem g3_scores_equal :
    lookupScore g3.Analyze.PageRankScores "A" =
      lookupScore g3.Analyze.PageRankScores "B" ∧
    lookupScore g3.Analyze.PageRankScores "B" =
      lookupScore g3.Analyze.PageRankScores "C" := by
  have hps : g3.Analyze.PageRankScores =
      g3.Vertices.map (fun v => (v, prScores g3 (85 / 100) 100 v)) := by
    rw [DependencyGraph.Analyze, DependencyGraph.computePageRank,
      if_neg (by decide)]
  have hV : g3.Vertices = ["A", "B", "C"] := by decide
  rw [hps, hV]
  rw [lookupScore_map_self _ _ _ (by decide),
    lookupScore_map_self _ _ _ (by decide),
    lookupScore_map_self _ _ _ (by decide)]
  exact g3_scores_equal_aux 100

/-- Embedding of `graph.HotspotEntry`. -/
structure HotspotEntry where
  Path : String
  Score : ℚ
deriving DecidableEq, Repr

/-- The comparator of `GetTopHotspots`'s `sort.Slice` call, as a total
order: entry `a` precedes entry `b` when its score is at least `b`'s. -/
def byScoreDesc (a b : HotspotEntry) : Prop := b.Score ≤ a.Score

instance : DecidableRel byScoreDesc :=
  fun a b => inferInstanceAs (Decidable (b.Score ≤ a.Score))

instance : IsTotal HotspotEntry byScoreDesc :=
  ⟨fun a b => le_total b.Score a.Score⟩

instance : IsTrans HotspotEntry byScoreDesc :=
  ⟨fun _ _ _ h1 h2 => le_trans h2 h1⟩

namespace DependencyGraph

/-- Embedding of `(*DependencyGraph).GetTopHotspots`: collect the score
map's entries, sort them by descending score (Go's `sort.Slice` leaves the
order among equal scores unspecified; insertion sort realises one of the
admissible outcomes), and truncate to `limit` entries when longer. -/
def GetTopHotspots (g : DependencyGraph) (limit : ℕ) : List HotspotEntry :=
  let entries := g.PageRankScores.map (fun p => ⟨p.1, p.2⟩)
  let sorted := List.insertionSort byScoreDesc entries
  if limit < sorted.length then sorted.take limit else sorted

end DependencyGraph

/-- Claim C7: `GetTopHotspots 0` is empty, and for every `limit` the result
has at most `limit` entries and is sorted by non-increasing score. -/
theorem topHotspots_bounded_sorted (g : DependencyGraph) (limit : ℕ) :
    g.GetTopHotspots 0 = [] ∧
    (g.GetTopHotspots limit).length ≤ limit ∧
    (g.GetTopHotspots limit).Sorted byScoreDesc := by
  refine ⟨?_, ?_, ?_⟩
  · unfold DependencyGraph.GetTopHotspots
    dsimp only
    split
    · exact List.take_zero _
    · rename_i h
      exact List.length_eq_zero.mp (by omega)
  · unfold DependencyGraph.GetTopHotspots
    dsimp only
    split
    · rename_i h
      rw [List.length_take]
      omega
    · rename_i h
      omega
  · unfold DependencyGraph.GetTopHotspots
    dsimp only
    split
    · exact (List.sorted_insertionSort byScoreDesc _).sublist
        (List.take_sublist _ _)
    · exact List.sorted_insertionSort byScoreDesc _

/-- Embedding of `parser.DeclKind`. -/
inductive DeclKind
  | declStruct | declInterface | declFunc | declType | declConst | declVar
  | declMessage | declService | declRPC | declEnum
deriving DecidableEq, Repr

/-- Embedding of `parser.Declaration`. -/
structure Declaration where
  Name : String
  Kind : DeclKind
deriving DecidableEq, Repr

/-- Embedding of `parser.FunctionInfo`. -/
structure FunctionInfo where
  Name : String
  LineCount : ℕ
  FilePath : String
deriving DecidableEq, Repr

/-- Embedding of `parser.ParsedFile`, restricted to the fields
`buildDeclGraph` reads. -/
structure ParsedFile where
  FilePath : String
  Declarations : List Declaration
  BigFunctions : List FunctionInfo
deriving DecidableEq, Repr

/-- Embedding of `(*ParsedFile).FileName`: the suffix of the path after
its last `/`, or the whole path when it has none. -/
def ParsedFile.FileName (p : ParsedFile) : String :=
  String.mk ((p.FilePath.data.reverse.takeWhile (fun c => c != '/')).reverse)

/-- Embedding of `report.MicroserviceSummary`, restricted to the fields
`buildDeclGraph` reads. -/
structure MicroserviceSummary where
  Name : String
  Files : List ParsedFile
deriving DecidableEq, Repr

/-- The `typeKinds` set of `buildDeclGraph`. -/
def typeKinds (k : DeclKind) : Bool :=
  match k with
  | .declStruct | .declInterface | .declMessage | .declService
  | .declEnum => true
  | _ => false

/-- Embedding of the local struct `di` of `buildDeclGraph`. -/
structure DI where
  name : String
  fp : String
  fn : String
  kind : DeclKind
deriving DecidableEq, Repr

/-- The composite node id `d.fp + "::" + d.name`. -/
def nodeId (d : DI) : String := d.fp ++ "::" ++ d.name

/-- One declaration of the candidate-collection loop of `buildDeclGraph`:
type-kind declarations of name length ≥ 3 always enter; function-kind
declarations enter once per `(file, name)` key, tracked by `funcSet`. -/
def collectStepDecl (f : ParsedFile) (ac : List DI × List String)
    (d : Declaration) : List DI × List String :=
  let ac2 := if typeKinds d.Kind ∧ 3 ≤ d.Name.length then
      (ac.1 ++ [⟨d.Name, f.FilePath, f.FileName, d.Kind⟩], ac.2)
    else ac
  if d.Kind = DeclKind.declFunc ∧ 3 ≤ d.Name.length then
    let key := f.FilePath ++ "::" ++ d.Name
    if key ∈ ac2.2 then ac2
    else (ac2.1 ++ [⟨d.Name, f.FilePath, f.FileName, DeclKind.declFunc⟩],
      ac2.2 ++ [key])
  else ac2

/-- One `BigFunctions` entry of the candidate-collection loop. -/
def collectStepBF (f : ParsedFile) (ac : List DI × List String)
    (bf : FunctionInfo) : List DI × List String :=
  let key := bf.FilePath ++ "::" ++ bf.Name
  if key ∈ ac.2 then ac
  else (ac.1 ++ [⟨bf.Name, bf.FilePath, f.FileName, DeclKind.declFunc⟩],
    ac.2 ++ [key])

/-- The candidate list `ad` of `buildDeclGraph` before the node cap. -/
def collectDecls (files : List ParsedFile) : List DI :=
  (files.foldl (fun ac f =>
    f.BigFunctions.foldl (collectStepBF f)
      (f.Declarations.foldl (collectStepDecl f) ac)) ([], [])).1

/-- The `sort.Slice` comparator of the node cap: a candidate precedes
another when its file's relevance score is at least the other's. -/
def diByScore (scores : String → ℚ) (a b : DI) : Prop :=
  scores b.fp ≤ scores a.fp

instance (scores : String → ℚ) : DecidableRel (diByScore scores) :=
  fun a b => inferInstanceAs (Decidable (scores b.fp ≤ scores a.fp))

instance (scores : String → ℚ) : IsTotal DI (diByScore scores) :=
  ⟨fun a b => le_total (scores b.fp) (scores a.fp)⟩

instance (scores : String → ℚ) : IsTrans DI (diByScore scores) :=
  ⟨fun _ _ _ h1 h2 => le_trans h2 h1⟩

/-- The node cap of `buildDeclGraph`: above 80 candidates, keep the 80
whose files score highest. -/
def capNodes (scores : String → ℚ) (ad : List DI) : List DI :=
  if 80 < ad.length then
    (List.insertionSort (diByScore scores) ad).take 80
  else ad

/-- The final candidate-node list of `buildDeclGraph`. -/
def declNodes (ms : MicroserviceSummary) (scores : String → ℚ) : List DI :=
  capNodes scores (collectDecls ms.Files)

/-- Embedding of `report.gNode`. -/
structure GNode where
  ID : String
  Label : String
  Sublabel : String
  Kind : DeclKind
  Score : ℚ
  Group : String
deriving DecidableEq, Repr

/-- Embedding of `report.gLink`. -/
structure GLink where
  Source : String
  Target : String
deriving DecidableEq, Repr

/-- Embedding of `report.gData`. -/
structure GData where
  Nodes : List GNode
  Links : List GLink
deriving DecidableEq, Repr

/-- The score floor `if s < 0.001 { s = 0.001 }`. -/
def clampScore (q : ℚ) : ℚ := if q < 1 / 1000 then 1 / 1000 else q

/-- One rendered node of the declaration subgraph. -/
def mkGNode (ms : MicroserviceSummary) (scores : String → ℚ) (d : DI) :
    GNode :=
  { ID := nodeId d, Label := d.name, Sublabel := d.fn, Kind := d.kind,
    Score := clampScore (scores d.fp), Group := ms.Name }

/-- Reading the `nodeScores` map (`0` on a missing key; on a duplicate id
the last write wins, as in a Go map). -/
def nodeScoreOf (scores : String → ℚ) (ad : List DI) (nid : String) : ℚ :=
  (((ad.map (fun d => (nodeId d, clampScore (scores d.fp)))).reverse.find?
    (fun p => p.1 == nid)).map Prod.snd).getD 0

/-- Reading the `fileContents` map: `""` on a missing key, as a Go map
lookup miss yields. -/
def contentOf (contents : List (String × String)) (fp : String) : String :=
  ((contents.reverse.find? (fun p => p.1 == fp)).map Prod.snd).getD ""

/-- Embedding of `report.isIdentChar`. -/
def isIdentChar (c : Char) : Bool :=
  ('a' ≤ c && c ≤ 'z') || ('A' ≤ c && c ≤ 'Z') ||
    ('0' ≤ c && c ≤ '9') || c == '_'

/-- The word-boundary test of `matchGoTypeRef` at one occurrence: `prev`
is the character before the occurrence (none at the string start) and
`rest` the characters after it. -/
def boundaryOk (prev : Option Char) (rest : List Char) : Bool :=
  (match prev with
   | none => true
   | some c => !isIdentChar c) &&
  (match rest with
   | [] => true
   | c :: _ => !isIdentChar c)

/-- The scanning loop of `report.matchGoTypeRef` over the character list:
on a boundary-failing occurrence Go advances the index past the whole
occurrence, so the recursion drops `|typeName|` characters there and one
character otherwise.  The fuel `|source|+1` bounds the number of steps. -/
def scanGo (t0 : Char) (ts : List Char) : ℕ → Option Char → List Char → Bool
  | 0, _, _ => false
  | _ + 1, _, [] => false
  | fuel + 1, prev, c :: rest =>
    if (t0 :: ts).isPrefixOf (c :: rest) then
      if boundaryOk prev ((c :: rest).drop (ts.length + 1)) then true
      else scanGo t0 ts fuel (some (ts.getLastD t0))
        ((c :: rest).drop (ts.length + 1))
    else scanGo t0 ts fuel (some c) rest

/-- Embedding of `report.matchGoTypeRef`.  (On an empty `typeName` the Go
loop either returns `true` or never terminates; every caller filters names
to length > 4, and the model returns `true` there.) -/
def matchGoTypeRef (source typeName : String) : Bool :=
  match typeName.data with
  | [] => true
  | c :: cs => scanGo c cs (source.data.length + 1) none source.data

/-- One pending edge: source id, target id, and the target's node score. -/
abbrev EdgeCand := String × String × ℚ

/-- The `(outgoing, seen)` pair of `buildDeclGraph`: the flat list of
appended candidates (per-source slices are its filtered sublists) and the
list of marked edge keys. -/
abbrev EdgeState := List EdgeCand × List String

/-- The dedup key `srcID + "->" + tgtID`. -/
def edgeKey (srcID tgtID : String) : String := srcID ++ "->" ++ tgtID

/-- Append a candidate and mark its key seen. -/
def pushCand (st : EdgeState) (srcID tgtID : String) (sc : ℚ) : EdgeState :=
  (st.1 ++ [(srcID, tgtID, sc)], st.2 ++ [edgeKey srcID tgtID])

/-- Strategy 1 of `buildDeclGraph`: for every read file, link each of its
declarations to every declaration of another file whose name (longer than
4 characters, different from the source's) occurs word-bounded in the
file's content. -/
def strategy1 (ad : List DI) (contents : List (String × String))
    (ns : String → ℚ) (st : EdgeState) : EdgeState :=
  contents.foldl (fun st1 pc =>
    (ad.filter (fun d => d.fp == pc.1)).foldl (fun st2 d =>
      ad.foldl (fun st3 tgt =>
        if tgt.fp == pc.1 then st3
        else if tgt.name == d.name || decide (tgt.name.length ≤ 4) then st3
        else if edgeKey (nodeId d) (nodeId tgt) ∈ st3.2 then st3
        else if matchGoTypeRef pc.2 tgt.name then
          pushCand st3 (nodeId d) (nodeId tgt) (ns (nodeId tgt))
        else st3) st2) st1) st

/-- Strategy 2 of `buildDeclGraph` (co-location): in every file holding
between 2 and 20 candidates, link each ordered pair of candidates at
different positions with different names. -/
def strategy2 (ad : List DI) (ns : String → ℚ) (st : EdgeState) :
    EdgeState :=
  ((ad.map DI.fp).dedup).foldl (fun st1 fp =>
    let nif := ad.filter (fun d => d.fp == fp)
    if nif.length < 2 ∨ 20 < nif.length then st1
    else
      nif.enum.foldl (fun st2 isrc =>
        nif.enum.foldl (fun st3 jtgt =>
          if isrc.1 = jtgt.1 ∨ jtgt.2.name = isrc.2.name then st3
          else if edgeKey (nodeId isrc.2) (nodeId jtgt.2) ∈ st3.2 then st3
          else pushCand st3 (nodeId isrc.2) (nodeId jtgt.2)
            (ns (nodeId jtgt.2))) st2) st1) st

/-- Strategy 3 of `buildDeclGraph` (proto schema linkage): every
service-kind candidate whose file content is non-empty is linked to every
message- or rpc-kind candidate whose name (longer than 4 characters)
occurs word-bounded in that content. -/
def strategy3 (ad : List DI) (contents : List (String × String))
    (ns : String → ℚ) (st : EdgeState) : EdgeState :=
  ad.foldl (fun st1 src =>
    if src.kind ≠ DeclKind.declService then st1
    else if contentOf contents src.fp = "" then st1
    else ad.foldl (fun st2 tgt =>
      if tgt.kind ≠ DeclKind.declMessage ∧ tgt.kind ≠ DeclKind.declRPC then
        st2
      else if tgt.name.length ≤ 4 then st2
      else if edgeKey (nodeId src) (nodeId tgt) ∈ st2.2 then st2
      else if matchGoTypeRef (contentOf contents src.fp) tgt.name then
        pushCand st2 (nodeId src) (nodeId tgt) (ns (nodeId tgt))
      else st2) st1) st

/-- Strategy 4 of `buildDeclGraph` (call heuristic): every function-kind
candidate whose file content is non-empty is linked to every function-kind
candidate of another file with a different name (longer than 4 characters)
occurring word-bounded in that content. -/
def strategy4 (ad : List DI) (contents : List (String × String))
    (ns : String → ℚ) (st : EdgeState) : EdgeState :=
  ad.foldl (fun st1 src =>
    if src.kind ≠ DeclKind.declFunc then st1
    else if contentOf contents src.fp = "" then st1
    else ad.foldl (fun st2 tgt =>
      if tgt.kind ≠ DeclKind.declFunc ∨ tgt.fp = src.fp ∨
          tgt.name = src.name then st2
      else if tgt.name.length ≤ 4 then st2
      else if edgeKey (nodeId src) (nodeId tgt) ∈ st2.2 then st2
      else if matchGoTypeRef (contentOf contents src.fp) tgt.name then
        pushCand st2 (nodeId src) (nodeId tgt) (ns (nodeId tgt))
      else st2) st1) st

/-- The full edge-candidate state after the four signal strategies. -/
def declCandidates (ms : MicroserviceSummary) (scores : String → ℚ)
    (contents : List (String × String)) : EdgeState :=
  let ad := declNodes ms scores
  let ns := nodeScoreOf scores ad
  strategy4 ad contents ns (strategy3 ad contents ns
    (strategy2 ad ns (strategy1 ad contents ns ([], []))))

/-- The `sort.Slice` comparator of the per-source cap: candidates with
higher target score first. -/
def candByScore (a b : String × ℚ) : Prop := b.2 ≤ a.2

instance : DecidableRel candByScore :=
  fun a b => inferInstanceAs (Decidable (b.2 ≤ a.2))

instance : IsTotal (String × ℚ) candByScore :=
  ⟨fun a b => le_total b.2 a.2⟩

instance : IsTrans (String × ℚ) candByScore :=
  ⟨fun _ _ _ h1 h2 => le_trans h2 h1⟩

/-- The links emitted for one source id: its candidate slice sorted by
descending target score, truncated to 5, targets filtered to live nodes. -/
def linksFor (nodeSet : List String) (flat : List EdgeCand)
    (srcID : String) : List GLink :=
  let cands := (flat.filter (fun c => c.1 == srcID)).map
    (fun c => (c.2.1, c.2.2))
  let sorted := List.insertionSort candByScore cands
  ((sorted.take (min 5 sorted.length)).filter
    (fun c => decide (c.1 ∈ nodeSet))).map (fun c => ⟨srcID, c.1⟩)

/-- The per-source edge cap of `buildDeclGraph`: walk the sources of the
`outgoing` map (their first-appearance order models Go's unspecified map
order), skipping ids that are not live nodes. -/
def buildLinks (nodeSet : List String) (flat : List EdgeCand) :
    List GLink :=
  ((flat.map (fun c => c.1)).dedup).foldl (fun links srcID =>
    if srcID ∈ nodeSet then links ++ linksFor nodeSet flat srcID
    else links) []

/-- Embedding of `report.buildDeclGraph`.  `scores` is the file-level
PageRank score map, `contents` the entries of the `fileContents` map of
successfully-read files. -/
def buildDeclGraph (ms : MicroserviceSummary) (scores : String → ℚ)
    (contents : List (String × String)) : GData :=
  let ad := declNodes ms scores
  let nodes := ad.map (mkGNode ms scores)
  let nodeSet := ad.map nodeId
  let flat := (declCandidates ms scores contents).1
  let links := buildLinks nodeSet flat
  let maxEdges := max 10 (3 * nodes.length)
  { Nodes := nodes,
    Links := if maxEdges < links.length then links.take maxEdges else links }

theorem linksFor_length_le (nodeSet : List String) (flat : List EdgeCand)
    (srcID : String) : (linksFor nodeSet flat srcID).length ≤ 5 := by
  unfold linksFor
  dsimp only
  rw [List.length_map]
  have h1 := List.length_filter_le (fun c => decide (c.1 ∈ nodeSet))
    ((List.insertionSort candByScore ((flat.filter (fun c => c.1 == srcID)).map
      (fun c => (c.2.1, c.2.2)))).take
      (min 5 (List.insertionSort candByScore ((flat.filter
        (fun c => c.1 == srcID)).map (fun c => (c.2.1, c.2.2)))).length))
  have h2 := List.length_take
    (min 5 (List.insertionSort candByScore ((flat.filter
      (fun c => c.1 == srcID)).map (fun c => (c.2.1, c.2.2)))).length)
    (List.insertionSort candByScore ((flat.filter
      (fun c => c.1 == srcID)).map (fun c => (c.2.1, c.2.2))))
  omega

theorem linksFor_source (nodeSet : List String) (flat : List EdgeCand)
    (srcID : String) :
    ∀ l ∈ linksFor nodeSet flat srcID, l.Source = srcID := by
  intro l hl
  unfold linksFor at hl
  obtain ⟨c, -, rfl⟩ := List.mem_map.mp hl
  rfl

theorem foldl_links_filter_le (nodeSet : List String) (flat : List EdgeCand)
    (s : String) :
    ∀ (srcs : List String), srcs.Nodup → ∀ (acc : List GLink),
      ((srcs.foldl (fun links srcID =>
          if srcID ∈ nodeSet then links ++ linksFor nodeSet flat srcID
          else links) acc).filter (fun l => l.Source == s)).length ≤
        (acc.filter (fun l => l.Source == s)).length +
          (if s ∈ srcs then 5 else 0) := by
  intro srcs
  induction srcs with
  | nil => intro _ acc; simp
  | cons u rest ih =>
      intro hnd acc
      rw [List.foldl_cons]
      have hstep : ∀ acc' : List GLink,
          (((if u ∈ nodeSet then acc' ++ linksFor nodeSet flat u
            else acc')).filter (fun l => l.Source == s)).length ≤
          (acc'.filter (fun l => l.Source == s)).length +
            (if u = s then 5 else 0) := by
        intro acc'
        split
        · rw [List.filter_append, List.length_append]
          by_cases hus : u = s
          · have := linksFor_length_le nodeSet flat u
            have hle := List.length_filter_le (fun l => l.Source == s)
              (linksFor nodeSet flat u)
            simp only [if_pos hus]
            omega
          · have hnil : (linksFor nodeSet flat u).filter
                (fun l => l.Source == s) = [] := by
              rw [List.filter_eq_nil_iff]
              intro l hl
              simp only [beq_iff_eq]
              rw [linksFor_source nodeSet flat u l hl]
              exact hus
            simp [hnil, hus]
        · by_cases hus : u = s <;> simp [hus]
      have hrec := ih (List.nodup_cons.mp hnd).2
        (if u ∈ nodeSet then acc ++ linksFor nodeSet flat u else acc)
      by_cases hus : u = s
      · subst hus
        have hsr : u ∉ rest := (List.nodup_cons.mp hnd).1
        have h1 := hstep acc
        rw [if_pos rfl] at h1
        rw [if_neg hsr] at hrec
        rw [if_pos (List.mem_cons_self u rest)]
        omega
      · have h1 := hstep acc
        have hmem : s ∈ u :: rest ↔ s ∈ rest := by
          constructor
          · intro h
            rcases List.mem_cons.mp h with h | h
            · exact absurd h.symm hus
            · exact h
          · exact fun h => List.mem_cons_of_mem u h
        simp only [if_neg hus, add_zero] at h1
        by_cases hsr : s ∈ rest
        · simp only [if_pos hsr, if_pos (hmem.mpr hsr)] at *
          omega
        · simp only [if_neg hsr, if_neg (fun h => hsr (hmem.mp h))] at *
          omega

theorem buildLinks_filter_le (nodeSet : List String) (flat : List EdgeCand)
    (s : String) :
    ((buildLinks nodeSet flat).filter (fun l => l.Source == s)).length ≤ 5 := by
  unfold buildLinks
  have h := foldl_links_filter_le nodeSet flat s
    ((flat.map (fun c => c.1)).dedup) (List.nodup_dedup _) []
  simp only [List.filter_nil, List.length_nil, zero_add] at h
  split at h
  · exact h
  · omega

theorem capNodes_length_le (scores : String → ℚ) (ad : List DI) :
    (capNodes scores ad).length ≤ 80 := by
  unfold capNodes
  split
  · rw [List.length_take]
    omega
  · omega

/-- Claim C5: for every input the declaration subgraph has at most 80
nodes; after the per-source cap (at most 5 outgoing links per source
node) the total link count is at most `max(10, 3 × nodeCount)`, any
excess being truncated. -/
theorem declGraph_caps (ms : MicroserviceSummary) (scores : String → ℚ)
    (contents : List (String × String)) :
    (buildDeclGraph ms scores contents).Nodes.length ≤ 80 ∧
    (buildDeclGraph ms scores contents).Links.length ≤
      max 10 (3 * (buildDeclGraph ms scores contents).Nodes.length) ∧
    ∀ s : String, ((buildDeclGraph ms scores contents).Links.filter
      (fun l => l.Source == s)).length ≤ 5 := by
  have hnodes : (buildDeclGraph ms scores contents).Nodes.length ≤ 80 := by
    unfold buildDeclGraph
    dsimp only
    rw [List.length_map]
    exact capNodes_length_le scores (collectDecls ms.Files)
  refine ⟨hnodes, ?_, ?_⟩
  · unfold buildDeclGraph
    dsimp only
    split
    · rename_i h
      rw [List.length_take, List.length_map]
      have : max 10 (3 * ((declNodes ms scores).map
        (mkGNode ms scores)).length) =
        max 10 (3 * (declNodes ms scores).length) := by
        rw [List.length_map]
      omega
    · rename_i h
      rw [List.length_map] at h ⊢
      omega
  · intro s
    unfold buildDeclGraph
    dsimp only
    have hb := buildLinks_filter_le ((declNodes ms scores).map nodeId)
      (declCandidates ms scores contents).1 s
    split
    · have hsub : ((buildLinks ((declNodes ms scores).map nodeId)
          (declCandidates ms scores contents).1).take
            (max 10 (3 * ((declNodes ms scores).map
              (mkGNode ms scores)).length))).filter
          (fun l => l.Source == s) <+:
          (buildLinks ((declNodes ms scores).map nodeId)
            (declCandidates ms scores contents).1).filter
          (fun l => l.Source == s) :=
        (List.take_prefix _ _).filter _
      have := hsub.sublist.length_le
      omega
    · exact hb

theorem foldl_const {α β : Type} (f : β → α → β) (h : ∀ b a, f b a = b) :
    ∀ (l : List α) (b : β), l.foldl f b = b := by
  intro l
  induction l with
  | nil => intro b; rfl
  | cons a rest ih => intro b; rw [List.foldl_cons, h b a, ih b]

theorem contentOf_nil (fp : String) : contentOf [] fp = "" := rfl

theorem strategy1_nil (ad : List DI) (ns : String → ℚ) (st : EdgeState) :
    strategy1 ad [] ns st = st := rfl

theorem strategy3_nil (ad : List DI) (ns : String → ℚ) (st : EdgeState) :
    strategy3 ad [] ns st = st := by
  unfold strategy3
  refine foldl_const _ ?_ ad st
  intro st1 src
  by_cases h : src.kind ≠ DeclKind.declService
  · rw [if_pos h]
  · rw [if_neg h, if_pos (contentOf_nil src.fp)]

theorem strategy4_nil (ad : List DI) (ns : String → ℚ) (st : EdgeState) :
    strategy4 ad [] ns st = st := by
  unfold strategy4
  refine foldl_const _ ?_ ad st
  intro st1 src
  by_cases h : src.kind ≠ DeclKind.declFunc
  · rw [if_pos h]
  · rw [if_neg h, if_pos (contentOf_nil src.fp)]

theorem sep_split_inj (p : Char → Bool) :
    ∀ (a b u v : List Char) (x y : Char),
      (∀ c ∈ a, p c = true) → (∀ c ∈ b, p c = true) →
      p x = false → p y = false →
      a ++ x :: u = b ++ y :: v → a = b ∧ x = y ∧ u = v := by
  intro a
  induction a with
  | nil =>
      intro b u v x y _ hb hx hy h
      cases b with
      | nil =>
          simp only [List.nil_append] at h
          obtain ⟨h1, h2⟩ := List.cons.injEq .. ▸ h
          exact ⟨rfl, by injection h, by injection h⟩
      | cons c bs =>
          simp only [List.nil_append, List.cons_append] at h
          have hc : c = x := (List.cons.inj h).1.symm
          have := hb c (List.mem_cons_self c bs)
          rw [hc, hx] at this
          exact absurd this (by simp)
  | cons c as ih =>
      intro b u v x y ha hb hx hy h
      cases b with
      | nil =>
          simp only [List.nil_append, List.cons_append] at h
          have hc : c = y := (List.cons.inj h).1
          have := ha c (List.mem_cons_self c as)
          rw [hc, hy] at this
          exact absurd this (by simp)
      | cons c' bs =>
          simp only [List.cons_append] at h
          obtain ⟨hcc, htail⟩ := List.cons.inj h
          obtain ⟨h1, h2, h3⟩ := ih bs u v x y
            (fun d hd => ha d (List.mem_cons_of_mem c hd))
            (fun d hd => hb d (List.mem_cons_of_mem c' hd)) hx hy htail
          exact ⟨by rw [hcc, h1], h2, h3⟩

theorem string_data_inj {s t : String} (h : s.data = t.data) : s = t := by
  cases s
  cases t
  exact congrArg String.mk h

theorem mkId_inj {fp a b : String}
    (h : fp ++ "::" ++ a = fp ++ "::" ++ b) : a = b := by
  have hd := congrArg String.data h
  simp only [String.data_append] at hd
  exact string_data_inj (List.append_cancel_left hd)

theorem edgeKey_inj_same_fp (fp : String) {a1 b1 a2 b2 : String}
    (ha1 : ∀ c ∈ a1.data, isIdentChar c = true)
    (ha2 : ∀ c ∈ a2.data, isIdentChar c = true)
    (h : edgeKey (fp ++ "::" ++ a1) (fp ++ "::" ++ b1) =
      edgeKey (fp ++ "::" ++ a2) (fp ++ "::" ++ b2)) :
    a1 = a2 ∧ b1 = b2 := by
  have hd := congrArg String.data h
  have hc : ("::" : String).data = [':', ':'] := rfl
  have hm : ("->" : String).data = ['-', '>'] := rfl
  simp only [edgeKey, String.data_append, List.append_assoc, hc, hm,
    List.cons_append, List.nil_append] at hd
  replace hd := List.append_cancel_left hd
  simp only [List.cons.injEq, true_and] at hd
  have hsep := sep_split_inj isIdentChar a1.data a2.data
    ('>' :: (fp.data ++ ':' :: ':' :: b1.data))
    ('>' :: (fp.data ++ ':' :: ':' :: b2.data)) '-' '-'
    ha1 ha2 rfl rfl hd
  refine ⟨string_data_inj hsep.1, ?_⟩
  have htail := hsep.2.2
  simp only [List.cons.injEq, true_and] at htail
  replace htail := List.append_cancel_left htail
  simp only [List.cons.injEq, true_and] at htail
  exact string_data_inj htail

/-- The candidate that co-location emits for the name pair `q` inside the
file `fp`. -/
def colEmit (fp : String) (ns : String → ℚ) (q : String × String) :
    EdgeCand :=
  (fp ++ "::" ++ q.1, fp ++ "::" ++ q.2, ns (fp ++ "::" ++ q.2))

/-- The edge key of that candidate. -/
def colKey (fp : String) (q : String × String) : String :=
  edgeKey (fp ++ "::" ++ q.1) (fp ++ "::" ++ q.2)

/-- The edge state holding exactly the co-location candidates of the name
pairs `P`. -/
def stOf (fp : String) (ns : String → ℚ) (P : List (String × String)) :
    EdgeState :=
  (P.map (colEmit fp ns), P.map (colKey fp))

theorem nodeId_of_fp {d : DI} {fp : String} (h : d.fp = fp) :
    nodeId d = fp ++ "::" ++ d.name := by
  rw [nodeId, h]

theorem coloc_inner (fp : String) (ns : String → ℚ) (i : ℕ) (src : DI)
    (hsf : src.fp = fp)
    (hsi : ∀ c ∈ src.name.data, isIdentChar c = true) :
    ∀ (js : List (ℕ × DI)) (P : List (String × String)),
      (∀ q ∈ P, ∀ c ∈ q.1.data, isIdentChar c = true) →
      (∀ q ∈ P, ∀ jt ∈ js, ¬(q.1 = src.name ∧ q.2 = jt.2.name)) →
      (js.map (fun jt => jt.2.name)).Nodup →
      (∀ jt ∈ js, jt.2.fp = fp) →
      js.foldl (fun st3 jtgt =>
          if i = jtgt.1 ∨ jtgt.2.name = src.name then st3
          else if edgeKey (nodeId src) (nodeId jtgt.2) ∈ st3.2 then st3
          else pushCand st3 (nodeId src) (nodeId jtgt.2)
            (ns (nodeId jtgt.2))) (stOf fp ns P) =
      stOf fp ns (P ++ (js.filter (fun jt =>
        decide (¬(i = jt.1 ∨ jt.2.name = src.name)))).map
        (fun jt => (src.name, jt.2.name))) := by
  intro js
  induction js with
  | nil => intro P _ _ _ _; simp
  | cons jt rest ih =>
      intro P hP1 hP2 hnd hfp
      rw [List.foldl_cons]
      have hndr : (rest.map (fun jt => jt.2.name)).Nodup :=
        (List.nodup_cons.mp hnd).2
      have hfpr : ∀ jt' ∈ rest, jt'.2.fp = fp :=
        fun jt' h => hfp jt' (List.mem_cons_of_mem _ h)
      by_cases hskip : i = jt.1 ∨ jt.2.name = src.name
      · rw [if_pos hskip]
        have hfc : ((jt :: rest).filter (fun jt =>
            decide (¬(i = jt.1 ∨ jt.2.name = src.name)))) =
            rest.filter (fun jt =>
              decide (¬(i = jt.1 ∨ jt.2.name = src.name))) := by
          rw [List.filter_cons]
          simp [hskip]
        rw [hfc]
        exact ih P hP1
          (fun q hq jt' hjt' => hP2 q hq jt' (List.mem_cons_of_mem _ hjt'))
          hndr hfpr
      · rw [if_neg hskip]
        have hjf : jt.2.fp = fp := hfp jt (List.mem_cons_self jt rest)
        have hnm : edgeKey (nodeId src) (nodeId jt.2) ∉ (stOf fp ns P).2 := by
          intro hmem
          obtain ⟨q, hq, hqe⟩ := List.mem_map.mp hmem
          rw [colKey, nodeId_of_fp hsf, nodeId_of_fp hjf] at hqe
          obtain ⟨h1, h2⟩ := edgeKey_inj_same_fp fp (hP1 q hq) hsi hqe
          exact hP2 q hq jt (List.mem_cons_self jt rest) ⟨h1, h2⟩
        rw [if_neg hnm]
        have hx : (nodeId src, nodeId jt.2, ns (nodeId jt.2)) =
            colEmit fp ns (src.name, jt.2.name) := by
          rw [colEmit, nodeId_of_fp hsf, nodeId_of_fp hjf]
        have hk : edgeKey (nodeId src) (nodeId jt.2) =
            colKey fp (src.name, jt.2.name) := by
          rw [colKey, nodeId_of_fp hsf, nodeId_of_fp hjf]
        have hpush : pushCand (stOf fp ns P) (nodeId src) (nodeId jt.2)
            (ns (nodeId jt.2)) =
            stOf fp ns (P ++ [(src.name, jt.2.name)]) := by
          rw [pushCand, stOf, stOf, hx, hk]
          simp only [List.map_append, List.map_cons, List.map_nil]
        rw [hpush]
        have hP1' : ∀ q ∈ P ++ [(src.name, jt.2.name)],
            ∀ c ∈ q.1.data, isIdentChar c = true := by
          intro q hq
          rcases List.mem_append.mp hq with h | h
          · exact hP1 q h
          · simp at h
            subst h
            exact hsi
        have hP2' : ∀ q ∈ P ++ [(src.name, jt.2.name)], ∀ jt' ∈ rest,
            ¬(q.1 = src.name ∧ q.2 = jt'.2.name) := by
          intro q hq jt' hjt'
          rcases List.mem_append.mp hq with h | h
          · exact hP2 q h jt' (List.mem_cons_of_mem _ hjt')
          · simp at h
            subst h
            intro hcon
            have hjn : jt.2.name = jt'.2.name := hcon.2
            have : jt.2.name ∉ rest.map (fun jt => jt.2.name) :=
              (List.nodup_cons.mp hnd).1
            exact this (hjn ▸ List.mem_map_of_mem _ hjt')
        rw [ih (P ++ [(src.name, jt.2.name)]) hP1' hP2' hndr hfpr]
        have hfc : ((jt :: rest).filter (fun jt =>
            decide (¬(i = jt.1 ∨ jt.2.name = src.name)))) =
            jt :: rest.filter (fun jt =>
              decide (¬(i = jt.1 ∨ jt.2.name = src.name))) := by
          rw [List.filter_cons]
          simp [hskip]
        rw [hfc, List.map_cons]
        simp [List.append_assoc]

theorem coloc_outer (fp : String) (ns : String → ℚ) (rows : List (ℕ × DI))
    (hrfp : ∀ jt ∈ rows, jt.2.fp = fp)
    (hrid : ∀ jt ∈ rows, ∀ c ∈ jt.2.name.data, isIdentChar c = true)
    (hrnd : (rows.map (fun jt => jt.2.name)).Nodup) :
    ∀ (is : List (ℕ × DI)) (P : List (String × String)),
      (∀ ir ∈ is, ir ∈ rows) →
      (is.map (fun ir => ir.2.name)).Nodup →
      (∀ q ∈ P, ∀ c ∈ q.1.data, isIdentChar c = true) →
      (∀ q ∈ P, ∀ ir ∈ is, q.1 ≠ ir.2.name) →
      is.foldl (fun st2 isrc =>
        rows.foldl (fun st3 jtgt =>
          if isrc.1 = jtgt.1 ∨ jtgt.2.name = isrc.2.name then st3
          else if edgeKey (nodeId isrc.2) (nodeId jtgt.2) ∈ st3.2 then st3
          else pushCand st3 (nodeId isrc.2) (nodeId jtgt.2)
            (ns (nodeId jtgt.2))) st2) (stOf fp ns P) =
      stOf fp ns (P ++ is.flatMap (fun ir =>
        (rows.filter (fun jt =>
          decide (¬(ir.1 = jt.1 ∨ jt.2.name = ir.2.name)))).map
          (fun jt => (ir.2.name, jt.2.name)))) := by
  intro is
  induction is with
  | nil => intro P _ _ _ _; simp
  | cons ir restIs ih =>
      intro P his hisnd hP1 hPno
      rw [List.foldl_cons]
      have hirrows := his ir (List.mem_cons_self ir restIs)
      have hinner := coloc_inner fp ns ir.1 ir.2 (hrfp ir hirrows)
        (hrid ir hirrows) rows P hP1
        (fun q hq jt _ hcon =>
          hPno q hq ir (List.mem_cons_self ir restIs) hcon.1)
        hrnd hrfp
      rw [hinner]
      have hrowL1 : ∀ q ∈ (rows.filter (fun jt =>
          decide (¬(ir.1 = jt.1 ∨ jt.2.name = ir.2.name)))).map
          (fun jt => (ir.2.name, jt.2.name)), q.1 = ir.2.name := by
        intro q hq
        obtain ⟨jt, -, rfl⟩ := List.mem_map.mp hq
        rfl
      have hP1' : ∀ q ∈ P ++ (rows.filter (fun jt =>
          decide (¬(ir.1 = jt.1 ∨ jt.2.name = ir.2.name)))).map
          (fun jt => (ir.2.name, jt.2.name)),
          ∀ c ∈ q.1.data, isIdentChar c = true := by
        intro q hq
        rcases List.mem_append.mp hq with h | h
        · exact hP1 q h
        · rw [hrowL1 q h]
          exact hrid ir hirrows
      have hPno' : ∀ q ∈ P ++ (rows.filter (fun jt =>
          decide (¬(ir.1 = jt.1 ∨ jt.2.name = ir.2.name)))).map
          (fun jt => (ir.2.name, jt.2.name)),
          ∀ ir' ∈ restIs, q.1 ≠ ir'.2.name := by
        intro q hq ir' hir'
        rcases List.mem_append.mp hq with h | h
        · exact hPno q h ir' (List.mem_cons_of_mem _ hir')
        · rw [hrowL1 q h]
          intro hcon
          have : ir.2.name ∉ restIs.map (fun ir => ir.2.name) :=
            (List.nodup_cons.mp hisnd).1
          exact this (hcon ▸ List.mem_map_of_mem _ hir')
      rw [ih (P ++ _) (fun x hx => his x (List.mem_cons_of_mem _ hx))
        (List.nodup_cons.mp hisnd).2 hP1' hPno']
      rw [List.flatMap_cons]
      simp [List.append_assoc]

theorem filter_decide_not_length {α : Type} (P : α → Prop) [DecidablePred P]
    (l : List α) :
    (l.filter (fun x => decide (¬P x))).length +
      (l.filter (fun x => decide (P x))).length = l.length := by
  induction l with
  | nil => rfl
  | cons a rest ih =>
      by_cases h : P a
      · rw [List.filter_cons, List.filter_cons,
          if_neg (by simp [h]), if_pos (by simp [h])]
        simp only [List.length_cons]
        omega
      · rw [List.filter_cons, List.filter_cons,
          if_pos (by simp [h]), if_neg (by simp [h])]
        simp only [List.length_cons]
        omega

theorem filter_decide_eq_length_one {α : Type} [DecidableEq α]
    {l : List α} (hd : l.Nodup) {x : α} (hx : x ∈ l) :
    (l.filter (fun e => decide (e = x))).length = 1 := by
  induction l with
  | nil => simp at hx
  | cons a rest ih =>
      rcases List.mem_cons.mp hx with h | h
      · subst h
        have hxr : x ∉ rest := (List.nodup_cons.mp hd).1
        have hnot : rest.filter (fun e => decide (e = x)) = [] := by
          rw [List.filter_eq_nil_iff]
          intro b hb
          simp only [decide_eq_true_eq]
          exact fun hbx => hxr (hbx ▸ hb)
        simp [hnot]
      · have hne : ¬(decide (a = x)) = true := by
          simp only [decide_eq_true_eq]
          exact fun hax => (List.nodup_cons.mp hd).1 (hax ▸ h)
        simp only [List.filter_cons, if_neg hne]
        exact ih (List.nodup_cons.mp hd).2 h

theorem dedup_const (l : List String) (fp : String) (hne : l ≠ [])
    (hall : ∀ x ∈ l, x = fp) : l.dedup = [fp] := by
  have hmem : fp ∈ l.dedup := by
    rw [List.mem_dedup]
    obtain ⟨y, hy⟩ := List.exists_mem_of_ne_nil l hne
    exact (hall y hy) ▸ hy
  have hnd : l.dedup.Nodup := List.nodup_dedup l
  have hall' : ∀ x ∈ l.dedup, x = fp := fun x hx =>
    hall x (List.mem_dedup.mp hx)
  cases hdd : l.dedup with
  | nil => rw [hdd] at hmem; simp at hmem
  | cons a rest =>
      rw [hdd] at hmem hnd hall'
      have ha : a = fp := hall' a (List.mem_cons_self a rest)
      have hrest : rest = [] := by
        cases hr : rest with
        | nil => rfl
        | cons b bs =>
            have hb : b = fp := hall' b (by rw [hr]; simp)
            have : a ∉ rest := (List.nodup_cons.mp hnd).1
            rw [hr] at this
            exact absurd (by rw [ha, ← hb]; simp : a ∈ b :: bs) this
      rw [ha, hrest]

/-- The candidate-node image of one declaration of the file `f`. -/
def declDI (f : ParsedFile) (d : Declaration) : DI :=
  ⟨d.Name, f.FilePath, f.FileName, d.Kind⟩

theorem collectStepDecl_fold (f : ParsedFile) :
    ∀ (ds : List Declaration) (ac : List DI × List String),
      (∀ d ∈ ds, typeKinds d.Kind = true ∧ 3 ≤ d.Name.length) →
      ds.foldl (collectStepDecl f) ac =
        (ac.1 ++ ds.map (declDI f), ac.2) := by
  intro ds
  induction ds with
  | nil => intro ac _; simp
  | cons d rest ih =>
      intro ac hds
      obtain ⟨htk, hlen⟩ := hds d (List.mem_cons_self d rest)
      have hnf : d.Kind ≠ DeclKind.declFunc := by
        intro h
        rw [h] at htk
        exact absurd htk (by decide)
      have hstep : collectStepDecl f ac d =
          (ac.1 ++ [declDI f d], ac.2) := by
        rw [collectStepDecl]
        simp only [if_pos (And.intro htk hlen)]
        rw [if_neg (fun hc => hnf hc.1)]
        rfl
      rw [List.foldl_cons, hstep,
        ih _ (fun d' h => hds d' (List.mem_cons_of_mem _ h)),
        List.map_cons]
      simp [List.append_assoc, declDI]

theorem collectDecls_single (f : ParsedFile) (hbf : f.BigFunctions = [])
    (hcand : ∀ d ∈ f.Declarations, typeKinds d.Kind = true ∧
      3 ≤ d.Name.length) :
    collectDecls [f] = f.Declarations.map (declDI f) := by
  rw [collectDecls, List.foldl_cons, List.foldl_nil, hbf,
    List.foldl_nil, collectStepDecl_fold f f.Declarations ([], []) hcand]
  simp

theorem strategy2_single (fp : String) (ns : String → ℚ) (ad : List DI)
    (hne : ad ≠ []) (hfp : ∀ d ∈ ad, d.fp = fp)
    (hid : ∀ d ∈ ad, ∀ c ∈ d.name.data, isIdentChar c = true)
    (hnd : (ad.map DI.name).Nodup) :
    strategy2 ad ns ([], []) =
      if ad.length < 2 ∨ 20 < ad.length then ([], [])
      else stOf fp ns (ad.enum.flatMap (fun ir =>
        (ad.enum.filter (fun jt =>
          decide (¬(ir.1 = jt.1 ∨ jt.2.name = ir.2.name)))).map
          (fun jt => (ir.2.name, jt.2.name)))) := by
  have hmm : ad.enum.map (fun jt => jt.2.name) = ad.map DI.name := by
    rw [show (fun jt : ℕ × DI => jt.2.name) = (DI.name ∘ Prod.snd)
      from rfl, ← List.map_map, List.enum_map_snd]
  have hsnd : ∀ jt ∈ ad.enum, jt.2 ∈ ad := by
    intro jt hjt
    have := List.mem_map_of_mem Prod.snd hjt
    rwa [List.enum_map_snd] at this
  unfold strategy2
  rw [dedup_const (ad.map DI.fp) fp (by simpa using hne)
    (fun x hx => by
      obtain ⟨d, hd, rfl⟩ := List.mem_map.mp hx
      exact hfp d hd)]
  rw [List.foldl_cons, List.foldl_nil]
  dsimp only
  rw [List.filter_eq_self.mpr (fun d hd => by simp [hfp d hd])]
  by_cases hg : ad.length < 2 ∨ 20 < ad.length
  · rw [if_pos hg, if_pos hg]
  · rw [if_neg hg, if_neg hg]
    have houter := coloc_outer fp ns ad.enum
      (fun jt hjt => hfp jt.2 (hsnd jt hjt))
      (fun jt hjt => hid jt.2 (hsnd jt hjt))
      (by rw [hmm]; exact hnd)
      ad.enum []
      (fun ir h => h)
      (by rw [hmm]; exact hnd)
      (by intro q hq; simp at hq)
      (by intro q hq; simp at hq)
    rw [show (([], []) : EdgeState) = stOf fp ns [] from rfl]
    rw [houter]
    simp only [List.nil_append]

theorem capNodes_subset (scores : String → ℚ) (ad : List DI) :
    ∀ d ∈ capNodes scores ad, d ∈ ad := by
  intro d hd
  unfold capNodes at hd
  split at hd
  · have hmem := List.mem_of_mem_take hd
    exact (List.perm_insertionSort (diByScore scores) ad).mem_iff.mp hmem
  · exact hd

theorem capNodes_names_nodup (scores : String → ℚ) {ad : List DI}
    (h : (ad.map DI.name).Nodup) :
    ((capNodes scores ad).map DI.name).Nodup := by
  unfold capNodes
  split
  · have hperm : List.Perm ((List.insertionSort (diByScore scores) ad).map
        DI.name) (ad.map DI.name) :=
      (List.perm_insertionSort (diByScore scores) ad).map DI.name
    have hnd2 : ((List.insertionSort (diByScore scores) ad).map
        DI.name).Nodup := hperm.nodup_iff.mpr h
    exact hnd2.sublist ((List.take_sublist _ _).map DI.name)
  · exact h

theorem capNodes_length (scores : String → ℚ) (ad : List DI) :
    (capNodes scores ad).length =
      if 80 < ad.length then 80 else ad.length := by
  unfold capNodes
  split
  · rename_i h
    rw [List.length_take, List.length_insertionSort]
    omega
  · rfl

/-- A microservice summary holding one parsed file and nothing else. -/
def singleFileMS (msName fp : String) (decls : List Declaration) :
    MicroserviceSummary :=
  ⟨msName, [⟨fp, decls, []⟩]⟩

theorem declCandidates_single (msName fp : String)
    (decls : List Declaration) (scores : String → ℚ)
    (hcand : ∀ d ∈ decls, typeKinds d.Kind = true ∧ 3 ≤ d.Name.length)
    (hnd : (decls.map Declaration.Name).Nodup)
    (hid : ∀ d ∈ decls, ∀ c ∈ d.Name.data, isIdentChar c = true) :
    declCandidates (singleFileMS msName fp decls) scores [] =
      if 2 ≤ decls.length ∧ decls.length ≤ 20 then
        stOf fp (nodeScoreOf scores
          (decls.map (declDI ⟨fp, decls, []⟩)))
          ((decls.map (declDI ⟨fp, decls, []⟩)).enum.flatMap (fun ir =>
            (((decls.map (declDI ⟨fp, decls, []⟩)).enum.filter (fun jt =>
              decide (¬(ir.1 = jt.1 ∨ jt.2.name = ir.2.name)))).map
              (fun jt => (ir.2.name, jt.2.name)))))
      else ([], []) := by
  have hcoll : collectDecls [(⟨fp, decls, []⟩ : ParsedFile)] =
      decls.map (declDI ⟨fp, decls, []⟩) :=
    collectDecls_single _ rfl hcand
  have hnames : (decls.map (declDI ⟨fp, decls, []⟩)).map DI.name =
      decls.map Declaration.Name := by
    rw [List.map_map]
    exact List.map_congr_left (fun d _ => rfl)
  have hndad : ((decls.map (declDI ⟨fp, decls, []⟩)).map DI.name).Nodup :=
    hnames ▸ hnd
  have hfpad : ∀ d ∈ decls.map (declDI ⟨fp, decls, []⟩), d.fp = fp := by
    intro d hd
    obtain ⟨dd, -, rfl⟩ := List.mem_map.mp hd
    rfl
  have hidad : ∀ d ∈ decls.map (declDI ⟨fp, decls, []⟩),
      ∀ c ∈ d.name.data, isIdentChar c = true := by
    intro d hd
    obtain ⟨dd, hdd, rfl⟩ := List.mem_map.mp hd
    exact hid dd hdd
  have hcap : declNodes (singleFileMS msName fp decls) scores =
      capNodes scores (decls.map (declDI ⟨fp, decls, []⟩)) := by
    rw [declNodes, show (singleFileMS msName fp decls).Files =
      [(⟨fp, decls, []⟩ : ParsedFile)] from rfl, hcoll]
  unfold declCandidates
  dsimp only
  rw [strategy1_nil, strategy3_nil, strategy4_nil, hcap]
  by_cases hrange : 2 ≤ decls.length ∧ decls.length ≤ 20
  · rw [if_pos hrange]
    have hcapid : capNodes scores (decls.map (declDI ⟨fp, decls, []⟩)) =
        decls.map (declDI ⟨fp, decls, []⟩) := by
      unfold capNodes
      rw [if_neg (by rw [List.length_map]; omega)]
    rw [hcapid]
    have hne : decls.map (declDI ⟨fp, decls, []⟩) ≠ [] := by
      intro h
      have := congrArg List.length h
      rw [List.length_map] at this
      simp only [List.length_nil] at this
      omega
    have hguard : ¬((decls.map (declDI ⟨fp, decls, []⟩)).length < 2 ∨
        20 < (decls.map (declDI ⟨fp, decls, []⟩)).length) := by
      rw [List.length_map]
      omega
    rw [strategy2_single fp _ _ hne hfpad hidad hndad, if_neg hguard]
  · rw [if_neg hrange]
    by_cases hbig : 80 < (decls.map (declDI ⟨fp, decls, []⟩)).length
    · have hlen : (capNodes scores
          (decls.map (declDI ⟨fp, decls, []⟩))).length = 80 := by
        rw [capNodes_length, if_pos hbig]
      have hne : capNodes scores (decls.map (declDI ⟨fp, decls, []⟩)) ≠ [] := by
        intro h
        rw [h] at hlen
        simp at hlen
      have hguard : (capNodes scores
            (decls.map (declDI ⟨fp, decls, []⟩))).length < 2 ∨
          20 < (capNodes scores
            (decls.map (declDI ⟨fp, decls, []⟩))).length := by
        rw [hlen]
        omega
      rw [strategy2_single fp _ _ hne
        (fun d hd => hfpad d (capNodes_subset _ _ d hd))
        (fun d hd => hidad d (capNodes_subset _ _ d hd))
        (capNodes_names_nodup scores hndad),
        if_pos hguard]
    · have hcapid : capNodes scores (decls.map (declDI ⟨fp, decls, []⟩)) =
          decls.map (declDI ⟨fp, decls, []⟩) := by
        unfold capNodes
        rw [if_neg hbig]
      rw [hcapid]
      rcases Nat.eq_zero_or_pos decls.length with hz | hp
      · have : decls = [] := List.length_eq_zero.mp hz
        subst this
        rfl
      · have hne : decls.map (declDI ⟨fp, decls, []⟩) ≠ [] := by
          intro h
          have := congrArg List.length h
          rw [List.length_map] at this
          simp only [List.length_nil] at this
          omega
        have hguard : (decls.map (declDI ⟨fp, decls, []⟩)).length < 2 ∨
            20 < (decls.map (declDI ⟨fp, decls, []⟩)).length := by
          rw [List.length_map]
          omega
        rw [strategy2_single fp _ _ hne hfpad hidad hndad, if_pos hguard]

theorem filter_comp_length {α β : Type} (f : α → β) (p : β → Bool)
    (l : List α) :
    (l.filter (fun x => p (f x))).length = ((l.map f).filter p).length := by
  induction l with
  | nil => rfl
  | cons a rest ih =>
      rw [List.map_cons, List.filter_cons, List.filter_cons]
      by_cases h : p (f a) = true
      · rw [if_pos h, if_pos h]
        simp only [List.length_cons]
        omega
      · rw [if_neg h, if_neg h]
        exact ih

theorem enum_map_name (ad : List DI) :
    ad.enum.map (fun jt => jt.2.name) = ad.map DI.name := by
  rw [show (fun jt : ℕ × DI => jt.2.name) = (DI.name ∘ Prod.snd) from rfl,
    ← List.map_map, List.enum_map_snd]

theorem coloc_row_length (ad : List DI)
    (hnd : (ad.map DI.name).Nodup) :
    ∀ ir ∈ ad.enum,
      ((ad.enum.filter (fun jt =>
        decide (¬(ir.1 = jt.1 ∨ jt.2.name = ir.2.name)))).map
        (fun jt => (ir.2.name, jt.2.name))).length = ad.length - 1 := by
  rintro ⟨i, src⟩ hir
  rw [List.length_map]
  have hcongr : ad.enum.filter (fun jt =>
      decide (¬((i, src).1 = jt.1 ∨ jt.2.name = (i, src).2.name))) =
      ad.enum.filter (fun jt => decide (¬(jt.2.name = src.name))) := by
    refine List.filter_congr ?_
    rintro ⟨j, tgt⟩ hjt
    refine decide_eq_decide.mpr ?_
    constructor
    · exact fun hno heq => hno (Or.inr heq)
    · intro hno hor
      rcases hor with hij | heq
      · have h1 : ad[i]? = some src := List.mk_mem_enum_iff_getElem?.mp hir
        have h2 : ad[j]? = some tgt := List.mk_mem_enum_iff_getElem?.mp hjt
        dsimp only at hij
        rw [← hij] at h2
        rw [h1] at h2
        have : src = tgt := by injection h2
        exact hno (this ▸ rfl)
      · exact hno heq
  rw [hcongr]
  have hsum := filter_decide_not_length
    (fun jt : ℕ × DI => jt.2.name = src.name) ad.enum
  have hone : (ad.enum.filter (fun jt =>
      decide (jt.2.name = src.name))).length = 1 := by
    have hcomp := filter_comp_length (fun jt : ℕ × DI => jt.2.name)
      (fun x => decide (x = src.name)) ad.enum
    rw [hcomp, enum_map_name]
    have hsrcmem : src ∈ ad := by
      have := List.mem_map_of_mem Prod.snd hir
      rwa [List.enum_map_snd] at this
    exact filter_decide_eq_length_one hnd
      (List.mem_map_of_mem DI.name hsrcmem)
  rw [hone] at hsum
  rw [List.enum_length] at hsum
  omega

theorem coloc_flat_length (ad : List DI)
    (hnd : (ad.map DI.name).Nodup) :
    (ad.enum.flatMap (fun ir =>
      (ad.enum.filter (fun jt =>
        decide (¬(ir.1 = jt.1 ∨ jt.2.name = ir.2.name)))).map
        (fun jt => (ir.2.name, jt.2.name)))).length =
    ad.length * (ad.length - 1) := by
  rw [List.length_flatMap]
  simp only [Function.comp_def]
  rw [List.map_congr_left (coloc_row_length ad hnd)]
  rw [List.map_const', List.sum_replicate, smul_eq_mul, List.enum_length]

theorem linksFor_length_eq (nodeSet : List String) (flat : List EdgeCand)
    (srcID : String) (htgt : ∀ c ∈ flat, c.2.1 ∈ nodeSet)
    (hcap : (flat.filter (fun c => c.1 == srcID)).length ≤ 5) :
    (linksFor nodeSet flat srcID).length =
      (flat.filter (fun c => c.1 == srcID)).length := by
  unfold linksFor
  dsimp only
  have hslen : (List.insertionSort candByScore
      ((flat.filter (fun c => c.1 == srcID)).map
        (fun c => (c.2.1, c.2.2)))).length =
      (flat.filter (fun c => c.1 == srcID)).length := by
    rw [List.length_insertionSort candByScore, List.length_map]
  have hmin : min 5 (List.insertionSort candByScore
      ((flat.filter (fun c => c.1 == srcID)).map
        (fun c => (c.2.1, c.2.2)))).length =
      (List.insertionSort candByScore
        ((flat.filter (fun c => c.1 == srcID)).map
          (fun c => (c.2.1, c.2.2)))).length := by
    rw [hslen]
    omega
  rw [hmin, List.take_length]
  have hfil : (List.insertionSort candByScore
      ((flat.filter (fun c => c.1 == srcID)).map
        (fun c => (c.2.1, c.2.2)))).filter
      (fun c => decide (c.1 ∈ nodeSet)) =
      List.insertionSort candByScore
        ((flat.filter (fun c => c.1 == srcID)).map
          (fun c => (c.2.1, c.2.2))) := by
    rw [List.filter_eq_self]
    intro c hcmem
    have hmem2 : c ∈ (flat.filter (fun c => c.1 == srcID)).map
        (fun c => (c.2.1, c.2.2)) :=
      (List.perm_insertionSort candByScore _).mem_iff.mp hcmem
    obtain ⟨x, hx, rfl⟩ := List.mem_map.mp hmem2
    simpa using htgt x (List.mem_of_mem_filter hx)
  rw [hfil, List.length_map, hslen]

theorem buildLinks_fold_length (nodeSet : List String)
    (flat : List EdgeCand) (htgt : ∀ c ∈ flat, c.2.1 ∈ nodeSet)
    (hcap : ∀ s, (flat.filter (fun c => c.1 == s)).length ≤ 5) :
    ∀ (srcs : List String) (acc : List GLink),
      (∀ s ∈ srcs, s ∈ nodeSet) →
      (srcs.foldl (fun links srcID =>
        if srcID ∈ nodeSet then links ++ linksFor nodeSet flat srcID
        else links) acc).length =
      acc.length + (srcs.map (fun s =>
        (flat.filter (fun c => c.1 == s)).length)).sum := by
  intro srcs
  induction srcs with
  | nil => intro acc _; simp
  | cons u rest ih =>
      intro acc hmem
      rw [List.foldl_cons, if_pos (hmem u (List.mem_cons_self u rest)),
        ih _ (fun s hs => hmem s (List.mem_cons_of_mem _ hs)),
        List.length_append,
        linksFor_length_eq nodeSet flat u htgt (hcap u),
        List.map_cons, List.sum_cons]
      omega

theorem buildLinks_full (nodeSet : List String) (flat : List EdgeCand)
    (hsrc : ∀ c ∈ flat, c.1 ∈ nodeSet)
    (htgt : ∀ c ∈ flat, c.2.1 ∈ nodeSet)
    (hcap : ∀ s, (flat.filter (fun c => c.1 == s)).length ≤ 5) :
    (buildLinks nodeSet flat).length = flat.length := by
  unfold buildLinks
  rw [buildLinks_fold_length nodeSet flat htgt hcap _ []
    (fun s hs => by
      obtain ⟨c, hc, rfl⟩ :=
        List.mem_map.mp (List.mem_dedup.mp hs)
      exact hsrc c hc)]
  simp only [List.length_nil, zero_add]
  have hid := List.sum_map_count_dedup_eq_length (flat.map (fun c => c.1))
  have hpt : ∀ s ∈ (flat.map (fun c => c.1)).dedup,
      (flat.map (fun c => c.1)).count s =
        (flat.filter (fun c => c.1 == s)).length := by
    intro s _
    show (flat.map (fun c => c.1)).countP (fun x => x == s) = _
    rw [List.countP_map, List.countP_eq_length_filter]
    rfl
  rw [List.map_congr_left hpt, List.length_map] at hid
  exact hid

theorem enum_snd_mem {ad : List DI} {jt : ℕ × DI} (h : jt ∈ ad.enum) :
    jt.2 ∈ ad := by
  have := List.mem_map_of_mem Prod.snd h
  rwa [List.enum_map_snd] at this

theorem coloc_pair_mem {ad : List DI} {q : String × String}
    (hq : q ∈ ad.enum.flatMap (fun ir =>
      (ad.enum.filter (fun jt =>
        decide (¬(ir.1 = jt.1 ∨ jt.2.name = ir.2.name)))).map
        (fun jt => (ir.2.name, jt.2.name)))) :
    (∃ a ∈ ad, q.1 = a.name) ∧ ∃ b ∈ ad, q.2 = b.name := by
  obtain ⟨ir, hir, hq2⟩ := List.mem_flatMap.mp hq
  obtain ⟨jt, hjt, rfl⟩ := List.mem_map.mp hq2
  exact ⟨⟨ir.2, enum_snd_mem hir, rfl⟩,
    ⟨jt.2, enum_snd_mem (List.mem_of_mem_filter hjt), rfl⟩⟩

theorem coloc_filter_src_le (fp : String) (ns : String → ℚ) (B : ℕ)
    (s : String) :
    ∀ (is : List (ℕ × DI)) (R : (ℕ × DI) → List (String × String)),
      (is.map (fun ir => ir.2.name)).Nodup →
      (∀ ir ∈ is, ∀ q ∈ R ir, q.1 = ir.2.name) →
      (∀ ir ∈ is, (R ir).length ≤ B) →
      ((is.flatMap R).filter
        (fun q => (colEmit fp ns q).1 == s)).length ≤ B := by
  intro is
  induction is with
  | nil => intro R _ _ _; simp
  | cons ir rest ih =>
      intro R hnd hR hB
      rw [List.flatMap_cons, List.filter_append, List.length_append]
      by_cases hm : ((fp ++ "::" ++ ir.2.name : String) == s) = true
      · have hrest : ((rest.flatMap R).filter
            (fun q => (colEmit fp ns q).1 == s)) = [] := by
          rw [List.filter_eq_nil_iff]
          intro q hq
          obtain ⟨ir', hir', hq'⟩ := List.mem_flatMap.mp hq
          have hq1 : q.1 = ir'.2.name :=
            hR ir' (List.mem_cons_of_mem _ hir') q hq'
          intro hps
          have hs1 : (fp ++ "::" ++ ir.2.name) = s := eq_of_beq hm
          have hs2 : (fp ++ "::" ++ q.1) = s := eq_of_beq hps
          have hq2 : q.1 = ir.2.name := mkId_inj (hs2.trans hs1.symm)
          have hni : ir.2.name ∉ rest.map (fun ir => ir.2.name) :=
            (List.nodup_cons.mp hnd).1
          exact hni (hq2 ▸ hq1 ▸ List.mem_map_of_mem _ hir')
        rw [hrest]
        have h1 := List.length_filter_le
          (fun q => (colEmit fp ns q).1 == s) (R ir)
        have h2 := hB ir (List.mem_cons_self ir rest)
        simp only [List.length_nil]
        omega
      · have hR0 : ((R ir).filter
            (fun q => (colEmit fp ns q).1 == s)) = [] := by
          rw [List.filter_eq_nil_iff]
          intro q hq
          rw [show (colEmit fp ns q).1 = fp ++ "::" ++ q.1 from rfl,
            hR ir (List.mem_cons_self ir rest) q hq]
          exact fun hc => hm hc
        rw [hR0]
        simp only [List.length_nil, zero_add]
        exact ih _ (List.nodup_cons.mp hnd).2
          (fun ir' h => hR ir' (List.mem_cons_of_mem _ h))
          (fun ir' h => hB ir' (List.mem_cons_of_mem _ h))

/-- Claim C6: in a single-file component whose declarations are all
candidates (type-kind, names of length ≥ 3, pairwise distinct
identifier names) and whose file contents were not readable (no other
signal fires), the co-location signal emits exactly the ordered pairs of
distinct declarations — `n·(n-1)` candidate edges — when the file holds
between 2 and 20 candidates, and none otherwise; a 3-declaration file
yields exactly 6 edges in the final subgraph, and a 1-declaration or
over-20-declaration file yields none. -/
theorem coloc_signal (msName fp : String) (decls : List Declaration)
    (scores : String → ℚ)
    (hcand : ∀ d ∈ decls, typeKinds d.Kind = true ∧ 3 ≤ d.Name.length)
    (hnd : (decls.map Declaration.Name).Nodup)
    (hid : ∀ d ∈ decls, ∀ c ∈ d.Name.data, isIdentChar c = true) :
    ((declCandidates (singleFileMS msName fp decls) scores []).1.length =
      if 2 ≤ decls.length ∧ decls.length ≤ 20 then
        decls.length * (decls.length - 1) else 0) ∧
    ((2 ≤ decls.length ∧ decls.length ≤ 20) →
      ∀ a ∈ decls, ∀ b ∈ decls, a.Name ≠ b.Name →
        ∃ c ∈ (declCandidates (singleFileMS msName fp decls) scores []).1,
          c.1 = fp ++ "::" ++ a.Name ∧ c.2.1 = fp ++ "::" ++ b.Name) ∧
    (decls.length = 3 →
      (buildDeclGraph (singleFileMS msName fp decls) scores
        []).Links.length = 6) ∧
    (decls.length = 1 →
      (buildDeclGraph (singleFileMS msName fp decls) scores []).Links
        = []) ∧
    (20 < decls.length →
      (buildDeclGraph (singleFileMS msName fp decls) scores []).Links
        = []) := by
  have hchar := declCandidates_single msName fp decls scores hcand hnd hid
  have hnames : (decls.map (declDI ⟨fp, decls, []⟩)).map DI.name =
      decls.map Declaration.Name := by
    rw [List.map_map]
    exact List.map_congr_left (fun d _ => rfl)
  have hndad : ((decls.map (declDI ⟨fp, decls, []⟩)).map DI.name).Nodup :=
    hnames ▸ hnd
  have hfpad : ∀ d ∈ decls.map (declDI ⟨fp, decls, []⟩), d.fp = fp := by
    intro d hd
    obtain ⟨dd, -, rfl⟩ := List.mem_map.mp hd
    rfl
  have hlen : (decls.map (declDI ⟨fp, decls, []⟩)).length = decls.length :=
    List.length_map ..
  refine ⟨?_, ?_, ?_, ?_, ?_⟩
  · rw [hchar]
    by_cases hr : 2 ≤ decls.length ∧ decls.length ≤ 20
    · rw [if_pos hr, if_pos hr]
      simp only [stOf]
      rw [List.length_map,
        coloc_flat_length (decls.map (declDI ⟨fp, decls, []⟩)) hndad, hlen]
    · rw [if_neg hr, if_neg hr]
      rfl
  · intro hr a ha b hb hab
    rw [hchar, if_pos hr]
    obtain ⟨i, hi, hgi⟩ :=
      List.getElem_of_mem (List.mem_map_of_mem (declDI ⟨fp, decls, []⟩) ha)
    obtain ⟨j, hj, hgj⟩ :=
      List.getElem_of_mem (List.mem_map_of_mem (declDI ⟨fp, decls, []⟩) hb)
    have hie : (i, declDI ⟨fp, decls, []⟩ a) ∈
        (decls.map (declDI ⟨fp, decls, []⟩)).enum := by
      rw [List.mk_mem_enum_iff_getElem?, List.getElem?_eq_getElem hi, hgi]
    have hje : (j, declDI ⟨fp, decls, []⟩ b) ∈
        (decls.map (declDI ⟨fp, decls, []⟩)).enum := by
      rw [List.mk_mem_enum_iff_getElem?, List.getElem?_eq_getElem hj, hgj]
    refine ⟨colEmit fp (nodeScoreOf scores
      (decls.map (declDI ⟨fp, decls, []⟩))) (a.Name, b.Name), ?_, rfl, rfl⟩
    show _ ∈ List.map _ _
    refine List.mem_map_of_mem _ ?_
    refine List.mem_flatMap.mpr ⟨(i, declDI ⟨fp, decls, []⟩ a), hie, ?_⟩
    have hjf : (j, declDI ⟨fp, decls, []⟩ b) ∈
        (decls.map (declDI ⟨fp, decls, []⟩)).enum.filter (fun jt =>
          decide (¬((i, declDI ⟨fp, decls, []⟩ a).1 = jt.1 ∨
            jt.2.name = (i, declDI ⟨fp, decls, []⟩ a).2.name))) := by
      rw [List.mem_filter]
      refine ⟨hje, ?_⟩
      rw [decide_eq_true_eq]
      rintro (hij | heq)
      · dsimp only at hij
        have hgi2 : (decls.map (declDI ⟨fp, decls, []⟩))[i]? =
            some (declDI ⟨fp, decls, []⟩ a) := by
          rw [List.getElem?_eq_getElem hi, hgi]
        have hgj2 : (decls.map (declDI ⟨fp, decls, []⟩))[j]? =
            some (declDI ⟨fp, decls, []⟩ b) := by
          rw [List.getElem?_eq_getElem hj, hgj]
        rw [hij] at hgi2
        rw [hgj2] at hgi2
        have heq2 : declDI ⟨fp, decls, []⟩ b = declDI ⟨fp, decls, []⟩ a := by
          injection hgi2
        exact hab (congrArg DI.name heq2).symm
      · exact hab heq.symm
    exact List.mem_map_of_mem _ hjf
  · intro h3
    have hr : 2 ≤ decls.length ∧ decls.length ≤ 20 := by omega
    set ad := decls.map (declDI ⟨fp, decls, []⟩) with had
    set ns := nodeScoreOf scores ad with hns
    set Pfull := ad.enum.flatMap (fun ir =>
      ((ad.enum.filter (fun jt =>
        decide (¬(ir.1 = jt.1 ∨ jt.2.name = ir.2.name)))).map
        (fun jt => (ir.2.name, jt.2.name)))) with hPfull
    have hnot80 : ¬(80 < ad.length) := by rw [hlen]; omega
    have hdn : declNodes (singleFileMS msName fp decls) scores = ad := by
      rw [declNodes, show (singleFileMS msName fp decls).Files =
        [(⟨fp, decls, []⟩ : ParsedFile)] from rfl,
        collectDecls_single _ rfl hcand, ← had]
      unfold capNodes
      rw [if_neg hnot80]
    have hflat : (declCandidates (singleFileMS msName fp decls) scores
        []).1 = Pfull.map (colEmit fp ns) := by
      rw [hchar, if_pos hr]
      rfl
    have hcap : ∀ s, ((Pfull.map (colEmit fp ns)).filter
        (fun c => c.1 == s)).length ≤ 5 := by
      intro s
      rw [← filter_comp_length (colEmit fp ns) (fun c => c.1 == s) Pfull]
      rw [hPfull]
      refine coloc_filter_src_le fp ns 5 s ad.enum _ ?_ ?_ ?_
      · rw [enum_map_name]
        exact hndad
      · intro ir _ q hq
        obtain ⟨jt, -, rfl⟩ := List.mem_map.mp hq
        rfl
      · intro ir hir
        rw [coloc_row_length ad hndad ir hir, hlen, h3]
        omega
    have hsrc : ∀ c ∈ Pfull.map (colEmit fp ns),
        c.1 ∈ ad.map nodeId := by
      intro c hc
      obtain ⟨q, hq, rfl⟩ := List.mem_map.mp hc
      rw [hPfull] at hq
      obtain ⟨⟨a', ha', hq1⟩, -⟩ := coloc_pair_mem hq
      show fp ++ "::" ++ q.1 ∈ _
      rw [hq1, ← nodeId_of_fp (hfpad a' ha')]
      exact List.mem_map_of_mem nodeId ha'
    have htgt : ∀ c ∈ Pfull.map (colEmit fp ns),
        c.2.1 ∈ ad.map nodeId := by
      intro c hc
      obtain ⟨q, hq, rfl⟩ := List.mem_map.mp hc
      rw [hPfull] at hq
      obtain ⟨-, b', hb', hq2⟩ := coloc_pair_mem hq
      show fp ++ "::" ++ q.2 ∈ _
      rw [hq2, ← nodeId_of_fp (hfpad b' hb')]
      exact List.mem_map_of_mem nodeId hb'
    have hbl : (buildLinks (ad.map nodeId)
        (Pfull.map (colEmit fp ns))).length = 6 := by
      rw [buildLinks_full _ _ hsrc htgt hcap, List.length_map, hPfull,
        coloc_flat_length ad hndad, hlen, h3]
    unfold buildDeclGraph
    dsimp only
    rw [hdn, hflat]
    have hcond : ¬(max 10 (3 * ((ad.map (mkGNode
        (singleFileMS msName fp decls) scores)).length)) <
        (buildLinks (ad.map nodeId) (Pfull.map (colEmit fp ns))).length) := by
      rw [hbl, List.length_map, hlen, h3]
      decide
    rw [if_neg hcond]
    exact hbl
  · intro h1
    have hnr : ¬(2 ≤ decls.length ∧ decls.length ≤ 20) := by omega
    have hflat : (declCandidates (singleFileMS msName fp decls) scores
        []).1 = [] := by
      rw [hchar, if_neg hnr]
    unfold buildDeclGraph
    dsimp only
    rw [hflat]
    have hb0 : buildLinks ((declNodes (singleFileMS msName fp decls)
        scores).map nodeId) [] = [] := rfl
    rw [hb0]
    have hc : ¬(max 10 (3 * ((declNodes (singleFileMS msName fp decls)
        scores).map (mkGNode (singleFileMS msName fp decls)
          scores)).length) < ([] : List GLink).length) := by
      simp
    rw [if_neg hc]
  · intro h20
    have hnr : ¬(2 ≤ decls.length ∧ decls.length ≤ 20) := by omega
    have hflat : (declCandidates (singleFileMS msName fp decls) scores
        []).1 = [] := by
      rw [hchar, if_neg hnr]
    unfold buildDeclGraph
    dsimp only
    rw [hflat]
    have hb0 : buildLinks ((declNodes (singleFileMS msName fp decls)
        scores).map nodeId) [] = [] := rfl
    rw [hb0]
    have hc : ¬(max 10 (3 * ((declNodes (singleFileMS msName fp decls)
        scores).map (mkGNode (singleFileMS msName fp decls)
          scores)).length) < ([] : List GLink).length) := by
      simp
    rw [if_neg hc]

/-- A concrete three-declaration file for exercising the co-location
signal. -/
def declsW : List Declaration :=
  [⟨"Alpha", DeclKind.declStruct⟩, ⟨"Beta", DeclKind.declStruct⟩,
   ⟨"Gamma", DeclKind.declEnum⟩]

theorem coloc_signal_witness :
    (∀ d ∈ declsW, typeKinds d.Kind = true ∧ 3 ≤ d.Name.length) ∧
    ((declsW.map Declaration.Name).Nodup) ∧
    (∀ d ∈ declsW, ∀ c ∈ d.Name.data, isIdentChar c = true) ∧
    declsW.length = 3 ∧
    (buildDeclGraph (singleFileMS "ms" "a.go" declsW)
      (fun _ => 0) []).Links.length = 6 :=
  ⟨by decide, by decide, by decide, by decide,
   (coloc_signal "ms" "a.go" declsW (fun _ => 0)
     (by decide) (by decide) (by decide)).2.2.1 (by decide)⟩

theorem foldl_pres {α β : Type} (f : β → α → β) (Inv : β → Prop)
    (l : List α) (h : ∀ b, ∀ a ∈ l, Inv b → Inv (f b a)) :
    ∀ b, Inv b → Inv (l.foldl f b) := by
  induction l with
  | nil => intro b hb; exact hb
  | cons a rest ih =>
      intro b hb
      rw [List.foldl_cons]
      exact ih (fun b' a' ha' hb' =>
        h b' a' (List.mem_cons_of_mem _ ha') hb')
        _ (h b a (List.mem_cons_self a rest) hb)

theorem foldl_reach {α β : Type} (f : β → α → β) (Inv Q : β → Prop)
    (l : List α) (x : α) (hx : x ∈ l)
    (hpres : ∀ b, ∀ a ∈ l, Inv b → Inv (f b a))
    (hmono : ∀ b, ∀ a ∈ l, Q b → Q (f b a))
    (hstep : ∀ b, Inv b → Q (f b x)) :
    ∀ b, Inv b → Q (l.foldl f b) := by
  induction l with
  | nil => intro b hb; simp at hx
  | cons a rest ih =>
      intro b hb
      rw [List.foldl_cons]
      rcases List.mem_cons.mp hx with rfl | hx'
      · exact foldl_pres f Q rest
          (fun b' a' ha' => hmono b' a' (List.mem_cons_of_mem _ ha'))
          _ (hstep b hb)
      · exact ih hx'
          (fun b' a' ha' => hpres b' a' (List.mem_cons_of_mem _ ha'))
          (fun b' a' ha' => hmono b' a' (List.mem_cons_of_mem _ ha'))
          _ (hpres b a (List.mem_cons_self a rest) hb)

/-- The invariant the signal strategies maintain: every marked edge key is
the key of some appended candidate, and every candidate's endpoint ids are
node ids of candidate nodes. -/
def EdgeInv (ad : List DI) (st : EdgeState) : Prop :=
  (∀ ek ∈ st.2, ∃ c ∈ st.1, edgeKey c.1 c.2.1 = ek) ∧
  (∀ c ∈ st.1, ∃ a ∈ ad, ∃ b ∈ ad, c.1 = nodeId a ∧ c.2.1 = nodeId b)

theorem EdgeInv_push {ad : List DI} {st : EdgeState} (h : EdgeInv ad st)
    {a b : DI} (ha : a ∈ ad) (hb : b ∈ ad) (sc : ℚ) :
    EdgeInv ad (pushCand st (nodeId a) (nodeId b) sc) := by
  obtain ⟨h1, h2⟩ := h
  constructor
  · intro ek hek
    rcases List.mem_append.mp hek with hk | hk
    · obtain ⟨c, hc, hce⟩ := h1 ek hk
      exact ⟨c, List.mem_append_left _ hc, hce⟩
    · simp only [List.mem_singleton] at hk
      exact ⟨(nodeId a, nodeId b, sc),
        List.mem_append_right _ (List.mem_singleton.mpr rfl), hk ▸ rfl⟩
  · intro c hc
    rcases List.mem_append.mp hc with hk | hk
    · exact h2 c hk
    · simp only [List.mem_singleton] at hk
      exact ⟨a, ha, b, hb, hk ▸ rfl, hk ▸ rfl⟩

theorem append_gt_inj : ∀ (A B : List Char) (u v : List Char),
    (∀ c ∈ A, c ≠ '>') → (∀ c ∈ B, c ≠ '>') →
    A ++ '-' :: '>' :: u = B ++ '-' :: '>' :: v → A = B ∧ u = v := by
  intro A B u v hA hB h
  have hsep := sep_split_inj (fun c => decide (c ≠ '>'))
    (A ++ ['-']) (B ++ ['-']) u v '>' '>'
    (by
      intro c hc
      rcases List.mem_append.mp hc with h' | h'
      · simp [hA c h']
      · simp only [List.mem_singleton] at h'
        subst h'
        decide)
    (by
      intro c hc
      rcases List.mem_append.mp hc with h' | h'
      · simp [hB c h']
      · simp only [List.mem_singleton] at h'
        subst h'
        decide)
    (by decide) (by decide)
    (by simpa [List.append_assoc] using h)
  exact ⟨List.append_cancel_right hsep.1, hsep.2.2⟩

theorem edgeKey_inj_of_no_gt {s1 t1 s2 t2 : String}
    (h1 : ∀ c ∈ s1.data, c ≠ '>') (h2 : ∀ c ∈ s2.data, c ≠ '>')
    (h : edgeKey s1 t1 = edgeKey s2 t2) : s1 = s2 ∧ t1 = t2 := by
  have hd := congrArg String.data h
  have hm : ("->" : String).data = ['-', '>'] := rfl
  simp only [edgeKey, String.data_append, List.append_assoc, hm,
    List.cons_append, List.nil_append] at hd
  obtain ⟨ha, hb⟩ := append_gt_inj s1.data s2.data t1.data t2.data h1 h2 hd
  exact ⟨string_data_inj ha, string_data_inj hb⟩

theorem nodeId_no_gt {d : DI}
    (hn : ∀ c ∈ d.name.data, isIdentChar c = true)
    (hf : ∀ c ∈ d.fp.data, c ≠ '>') :
    ∀ c ∈ (nodeId d).data, c ≠ '>' := by
  intro c hc
  rw [nodeId] at hc
  simp only [String.data_append] at hc
  rcases List.mem_append.mp hc with h' | h'
  · rcases List.mem_append.mp h' with h'' | h''
    · exact hf c h''
    · have : c = ':' := by simpa using h''
      rw [this]
      decide
  · intro hgt
    have := hn c h'
    rw [hgt] at this
    exact absurd this (by decide)

theorem strategy1_inv (ad : List DI) (contents : List (String × String))
    (ns : String → ℚ) (st : EdgeState) (h : EdgeInv ad st) :
    EdgeInv ad (strategy1 ad contents ns st) := by
  unfold strategy1
  refine foldl_pres _ _ _ ?_ st h
  intro st1 pc _ h1
  refine foldl_pres _ _ _ ?_ st1 h1
  intro st2 d hd h2
  refine foldl_pres _ _ _ ?_ st2 h2
  intro st3 tgt htgt h3
  split
  · exact h3
  · split
    · exact h3
    · split
      · exact h3
      · split
        · exact EdgeInv_push h3 (List.mem_of_mem_filter hd) htgt _
        · exact h3

theorem strategy2_inv (ad : List DI) (ns : String → ℚ) (st : EdgeState)
    (h : EdgeInv ad st) : EdgeInv ad (strategy2 ad ns st) := by
  unfold strategy2
  refine foldl_pres _ _ _ ?_ st h
  intro st1 fp _ h1
  dsimp only
  split
  · exact h1
  · refine foldl_pres _ _ _ ?_ st1 h1
    intro st2 isrc hisrc h2
    refine foldl_pres _ _ _ ?_ st2 h2
    intro st3 jtgt hjtgt h3
    split
    · exact h3
    · split
      · exact h3
      · exact EdgeInv_push h3
          (List.mem_of_mem_filter (enum_snd_mem hisrc))
          (List.mem_of_mem_filter (enum_snd_mem hjtgt)) _

/-- A candidate from `src` to `tgt` has been appended. -/
def HasCand (src tgt : DI) (st : EdgeState) : Prop :=
  ∃ c ∈ st.1, c.1 = nodeId src ∧ c.2.1 = nodeId tgt

theorem HasCand_push {src tgt : DI} {st : EdgeState}
    (h : HasCand src tgt st) (x y : String) (sc : ℚ) :
    HasCand src tgt (pushCand st x y sc) := by
  obtain ⟨c, hc, hcp⟩ := h
  exact ⟨c, List.mem_append_left _ hc, hcp⟩

theorem strategy4_mem_mono (ad : List DI)
    (contents : List (String × String)) (ns : String → ℚ) (st : EdgeState)
    {src tgt : DI} (h : HasCand src tgt st) :
    HasCand src tgt (strategy4 ad contents ns st) := by
  unfold strategy4
  refine foldl_pres _ (HasCand src tgt) _ ?_ st h
  intro st1 s _ h1
  split
  · exact h1
  · split
    · exact h1
    · refine foldl_pres _ (HasCand src tgt) _ ?_ st1 h1
      intro st2 t _ h2
      split
      · exact h2
      · split
        · exact h2
        · split
          · exact h2
          · split
            · exact HasCand_push h2 _ _ _
            · exact h2

/-- Claim C2 (amended): among the collected candidate nodes, every
service-kind node whose file content was read non-empty is linked (under
the subgraph's `(source, target)`-key dedup) to every message- or rpc-kind
candidate node whose name is longer than 4 characters and occurs
word-bounded in that content; the edge is among the signal-phase
candidates.  (Identifier-shaped names and `>`-free paths rule out edge-key
collisions.) -/
theorem schema_linkage_amended (ms : MicroserviceSummary)
    (scores : String → ℚ) (contents : List (String × String))
    (src tgt : DI)
    (hsrc : src ∈ declNodes ms scores)
    (htgt : tgt ∈ declNodes ms scores)
    (hks : src.kind = DeclKind.declService)
    (hkt : tgt.kind = DeclKind.declMessage ∨ tgt.kind = DeclKind.declRPC)
    (hlen : 4 < tgt.name.length)
    (hcs : contentOf contents src.fp ≠ "")
    (hm : matchGoTypeRef (contentOf contents src.fp) tgt.name = true)
    (hident : ∀ d ∈ declNodes ms scores, ∀ c ∈ d.name.data,
      isIdentChar c = true)
    (hgt : ∀ d ∈ declNodes ms scores, ∀ c ∈ d.fp.data, c ≠ '>') :
    ∃ c ∈ (declCandidates ms scores contents).1,
      c.1 = nodeId src ∧ c.2.1 = nodeId tgt := by
  unfold declCandidates
  dsimp only
  set ad := declNodes ms scores with had
  set ns := nodeScoreOf scores ad with hns
  have hInv2 : EdgeInv ad
      (strategy2 ad ns (strategy1 ad contents ns ([], []))) :=
    strategy2_inv _ _ _ (strategy1_inv _ _ _ _
      ⟨by intro ek hek; simp at hek, by intro c hc; simp at hc⟩)
  have hQ3 : HasCand src tgt (strategy3 ad contents ns
      (strategy2 ad ns (strategy1 ad contents ns ([], [])))) := by
    unfold strategy3
    refine foldl_reach _ (EdgeInv ad) (HasCand src tgt) ad src hsrc
      ?_ ?_ ?_ _ hInv2
    · intro st1 s hs h1
      split
      · exact h1
      · split
        · exact h1
        · refine foldl_pres _ _ _ ?_ st1 h1
          intro st2 t ht h2
          split
          · exact h2
          · split
            · exact h2
            · split
              · exact h2
              · split
                · exact EdgeInv_push h2 hs ht _
                · exact h2
    · intro st1 s _ h1
      split
      · exact h1
      · split
        · exact h1
        · refine foldl_pres _ (HasCand src tgt) _ ?_ st1 h1
          intro st2 t _ h2
          split
          · exact h2
          · split
            · exact h2
            · split
              · exact h2
              · split
                · exact HasCand_push h2 _ _ _
                · exact h2
    · intro st1 h1
      rw [if_neg (not_not_intro hks)]
      rw [if_neg hcs]
      refine foldl_reach _ (EdgeInv ad) (HasCand src tgt) ad tgt htgt
        ?_ ?_ ?_ st1 h1
      · intro st2 t ht h2
        split
        · exact h2
        · split
          · exact h2
          · split
            · exact h2
            · split
              · exact EdgeInv_push h2 hsrc ht _
              · exact h2
      · intro st2 t _ h2
        split
        · exact h2
        · split
          · exact h2
          · split
            · exact h2
            · split
              · exact HasCand_push h2 _ _ _
              · exact h2
      · intro st2 h2
        rw [if_neg (fun hc => hkt.elim hc.1 hc.2)]
        rw [if_neg (by omega : ¬(tgt.name.length ≤ 4))]
        by_cases hseen : edgeKey (nodeId src) (nodeId tgt) ∈ st2.2
        · rw [if_pos hseen]
          obtain ⟨c, hc, hek⟩ := h2.1 _ hseen
          obtain ⟨a, ha, b, hb, hc1, hc2⟩ := h2.2 c hc
          rw [hc1, hc2] at hek
          obtain ⟨he1, he2⟩ := edgeKey_inj_of_no_gt
            (nodeId_no_gt (hident a ha) (hgt a ha))
            (nodeId_no_gt (hident src hsrc) (hgt src hsrc)) hek
          exact ⟨c, hc, hc1.trans he1, hc2.trans he2⟩
        · rw [if_neg hseen, if_pos hm]
          exact ⟨(nodeId src, nodeId tgt, ns (nodeId tgt)),
            List.mem_append_right _ (by simp), rfl, rfl⟩
  exact strategy4_mem_mono ad contents ns _ hQ3

/-- Two proto files: a service and a 4-character message name occurring
verbatim in the service's file content. -/
def msCex : MicroserviceSummary :=
  ⟨"ms", [⟨"s.proto", [⟨"SvcThing", DeclKind.declService⟩], []⟩,
          ⟨"m.proto", [⟨"Msgs", DeclKind.declMessage⟩], []⟩]⟩

/-- The read contents of `msCex`'s files. -/
def contentsCex : List (String × String) :=
  [("s.proto", "uses Msgs here")]

/-- Claim C2, counterexample: `SvcThing` (service) and `Msgs` (message)
are both candidate nodes, and the word-boundary scan of the service's
file content finds `Msgs`, yet — the name having ≤ 4 characters — no
service→message edge is produced: the candidate list and the final edge
list are empty. -/
theorem schema_linkage_cex :
    (⟨"SvcThing", "s.proto", "s.proto", DeclKind.declService⟩ : DI) ∈
      declNodes msCex (fun _ => 0) ∧
    (⟨"Msgs", "m.proto", "m.proto", DeclKind.declMessage⟩ : DI) ∈
      declNodes msCex (fun _ => 0) ∧
    matchGoTypeRef (contentOf contentsCex "s.proto") "Msgs" = true ∧
    contentOf contentsCex "s.proto" ≠ "" ∧
    (declCandidates msCex (fun _ => 0) contentsCex).1 = [] ∧
    (buildDeclGraph msCex (fun _ => 0) contentsCex).Links = [] := by
  decide

/-- Like `msCex` but with a 5-character message name. -/
def msOk : MicroserviceSummary :=
  ⟨"ms", [⟨"s.proto", [⟨"SvcThing", DeclKind.declService⟩], []⟩,
          ⟨"m.proto", [⟨"Msgss", DeclKind.declMessage⟩], []⟩]⟩

/-- The read contents of `msOk`'s files. -/
def contentsOk : List (String × String) :=
  [("s.proto", "uses Msgss here")]

theorem schema_linkage_amended_witness :
    ((⟨"SvcThing", "s.proto", "s.proto", DeclKind.declService⟩ : DI) ∈
      declNodes msOk (fun _ => 0)) ∧
    ((⟨"Msgss", "m.proto", "m.proto", DeclKind.declMessage⟩ : DI) ∈
      declNodes msOk (fun _ => 0)) ∧
    (4 < ("Msgss" : String).length) ∧
    matchGoTypeRef (contentOf contentsOk "s.proto") "Msgss" = true ∧
    ∃ c ∈ (declCandidates msOk (fun _ => 0) contentsOk).1,
      c.1 = nodeId ⟨"SvcThing", "s.proto", "s.proto",
        DeclKind.declService⟩ ∧
      c.2.1 = nodeId ⟨"Msgss", "m.proto", "m.proto",
        DeclKind.declMessage⟩ :=
  ⟨by decide, by decide, by decide, by decide,
   schema_linkage_amended msOk (fun _ => 0) contentsOk
     ⟨"SvcThing", "s.proto", "s.proto", DeclKind.declService⟩
     ⟨"Msgss", "m.proto", "m.proto", DeclKind.declMessage⟩
     (by decide) (by decide) (by decide) (Or.inl rfl) (by decide)
     (by decide) (by decide) (by decide) (by decide)⟩
